import Mathlib

/-!
Verification of the BlockSci file-mapper core (include/blocksci/core/file_mapper.hpp),
the RawBlock record (include/blocksci/core/raw_block.hpp) and the Blockchain
`__getitem__` binding (src/python-interface/blockchain_py.cpp) against the
natural-language specification.

The C++ is shallowly embedded: the mapped file and the append buffer of a
`SimpleFileMapper<mio::access_mode::write>` become lists of cells, the write
cursor becomes an explicit `Int` field, and every member function becomes a
pure function on that state.  Cells are a type parameter: byte-granular
stores instantiate it with `Nat` (one cell per `char`), while the index file
of an `IndexedFileMapper` instantiates it with `Int` (one cell per
`OffsetType` slot, so a `FileIndex<N>` record occupies `N` cells and all of
the source's `sizeof`-scaled offset arithmetic carries over with `sizeof` in
cell units).  A failed `assert`, and undefined behaviour such as a `memcpy`
whose size argument is a negative value cast to `size_t`, are modelled as
`none`.
-/

set_option maxHeartbeats 1000000

namespace blocksci

-- `OffsetType` (file_mapper.hpp line 59) is `int64_t`; it is modelled as `Int`
-- throughout (written `Int` so that arithmetic automation sees it directly).

/-- `InvalidFileIndex` (line 60): the maximum `int64_t` value, a sentinel
meaning "no offset". -/
def InvalidFileIndex : Int := 2 ^ 63 - 1

/-- State of `SimpleFileMapper<mio::access_mode::write>` (lines 168-302): the
contents of the memory-mapped file, the in-memory append buffer, and the
write cursor `writePos`.  `β` is the cell type (a `char` for byte stores). -/
structure SimpleFileMapper (β : Type) where
  file : List β
  buffer : List β
  writePos : Int
deriving DecidableEq, Repr

namespace SimpleFileMapper

variable {β : Type}

/-- `maxBufferSize` (line 169). -/
def maxBufferSize : Nat := 50000000

/-- `SimpleFileMapperBase::size` (lines 107-109): the mapped file length. -/
def baseSize (st : SimpleFileMapper β) : Int := st.file.length

/-- `SimpleFileMapper<write>::size` (lines 289-291): mapped length plus buffer
length. -/
def size (st : SimpleFileMapper β) : Int := baseSize st + st.buffer.length

/-- `getWriteOffset` (lines 212-214). -/
def getWriteOffset (st : SimpleFileMapper β) : Int := st.writePos

/-- `writeSpace` (lines 194-203), branch for branch; the second branch really
returns `(writePos - fileEnd) - buffer.size()`, which is negative whenever the
branch is taken. -/
def writeSpace (st : SimpleFileMapper β) : Int :=
  let fileEnd : Int := st.file.length
  if st.writePos < fileEnd then fileEnd - st.writePos
  else if st.writePos < fileEnd + st.buffer.length then
    (st.writePos - fileEnd) - st.buffer.length
  else 0

/-- `memcpy(l.data() + p, v.data(), v.length)`: overwrite `v.length` cells of
`l` starting at position `p` (meaningful while `p + v.length ≤ l.length`). -/
def overwrite (l : List β) (p : Nat) (v : List β) : List β :=
  l.take p ++ v ++ l.drop (p + v.length)

/-- Modelled from the spec: `SimpleFileMapper<write>::clearBuffer` is declared
at line 263 but its body is not among the repository source files.  Spec §4.1:
flush grows the on-disk file by the buffer length, copies the buffer into the
newly mapped tail and clears the buffer; the mapped size afterwards equals the
pre-flush logical size and the cursor is untouched. -/
def clearBuffer (st : SimpleFileMapper β) : SimpleFileMapper β :=
  { st with file := st.file ++ st.buffer, buffer := [] }

/-- Final region of `write` (lines 242-250): assert that the cursor sits at the
end of file plus buffer, append the remaining bytes to the buffer, advance the
cursor, and flush when the buffer has grown strictly beyond `maxBuf`
(`buffer.size() > maxBufferSize` in the source); the flag returned is that
comparison.  A failed assert is `none`. -/
def write3 (maxBuf : Nat) (fileEnd : Int) (st : SimpleFileMapper β)
    (bytes : List β) : Option (SimpleFileMapper β × Bool) :=
  if st.writePos = fileEnd + st.buffer.length then
    let st3 : SimpleFileMapper β :=
      { st with buffer := st.buffer ++ bytes, writePos := st.writePos + bytes.length }
    let bufferFull := decide (maxBuf < st3.buffer.length)
    some (if bufferFull then clearBuffer st3 else st3, bufferFull)
  else none

/-- Middle region of `write` (lines 230-240): the branch guarded by
`writePos >= fileEnd && writePos < buffer.size()`.  On this branch,
`writeSpace` is negative, so the `memcpy` receives a negative count cast to
`size_t`; that undefined behaviour is `none`. -/
def write2 (maxBuf : Nat) (fileEnd : Int) (st : SimpleFileMapper β)
    (bytes : List β) : Option (SimpleFileMapper β × Bool) :=
  if fileEnd ≤ st.writePos ∧ st.writePos < st.buffer.length then
    let writeAmount := min (bytes.length : Int) (writeSpace st)
    if writeAmount < 0 then none
    else
      let st2 : SimpleFileMapper β :=
        { st with
          buffer := overwrite st.buffer (st.writePos - fileEnd).toNat
            (bytes.take writeAmount.toNat),
          writePos := st.writePos + writeAmount }
      let rest := bytes.drop writeAmount.toNat
      if rest.length = 0 then some (st2, false) else write3 maxBuf fileEnd st2 rest
  else write3 maxBuf fileEnd st bytes

/-- `SimpleFileMapper<write>::write(const char *, OffsetType)` (lines 216-251).
The first region overwrites into the mapping while the cursor is strictly
below the mapped size; `assert(writeAmount > 0)` failing is `none`, and so is
the undefined behaviour of `memcpy` into `&file[writePos]` when the cursor is
negative.  `maxBuf` generalises the compile-time constant `maxBufferSize`. -/
def write (maxBuf : Nat) (st : SimpleFileMapper β) (bytes : List β) :
    Option (SimpleFileMapper β × Bool) :=
  let fileEnd : Int := st.file.length
  if st.writePos < fileEnd then
    let writeAmount := min (bytes.length : Int) (writeSpace st)
    if writeAmount ≤ 0 then none
    else if st.writePos < 0 then none
    else
      let st1 : SimpleFileMapper β :=
        { st with
          file := overwrite st.file st.writePos.toNat (bytes.take writeAmount.toNat),
          writePos := st.writePos + writeAmount }
      let rest := bytes.drop writeAmount.toNat
      if rest.length = 0 then some (st1, false) else write2 maxBuf fileEnd st1 rest
  else write2 maxBuf fileEnd st bytes

/-- `seek` (lines 297-299). -/
def seek (st : SimpleFileMapper β) (offset : Int) : SimpleFileMapper β :=
  { st with writePos := offset }

/-- `seekEnd` (lines 293-295). -/
def seekEnd (st : SimpleFileMapper β) : SimpleFileMapper β :=
  { st with writePos := (st.file.length : Int) + st.buffer.length }

/-- `reload` in write mode (lines 207-210): clears the buffer. -/
def reload (st : SimpleFileMapper β) : SimpleFileMapper β := clearBuffer st

/-- Modelled from the spec: `truncate` is declared at line 301 with its body
outside the repository sources.  Spec §4.1: flush, then resize the on-disk
file to `offset` bytes, zero-extending when `offset` exceeds the mapped size,
and clamp the cursor to `[0, offset]`. -/
def truncate [Zero β] (st : SimpleFileMapper β) (offset : Int) :
    SimpleFileMapper β :=
  let fl := (clearBuffer st).file
  { file :=
      if offset.toNat ≤ fl.length then fl.take offset.toNat
      else fl ++ List.replicate (offset.toNat - fl.length) 0,
    buffer := [],
    writePos := max 0 (min st.writePos offset) }

/-- A `char *` into the store: null, or an index into the mapped file, or an
index into the buffer. -/
inductive Ptr where
  | null
  | filePtr (i : Nat)
  | bufPtr (i : Nat)
deriving DecidableEq, Repr

/-- `SimpleFileMapperBase::getDataAtOffset` (lines 99-105): `nullptr` at
`InvalidFileIndex`, otherwise a pointer into the mapping; an offset outside
the mapping (the assert, or a negative index) is `none`. -/
def baseGetDataAtOffset (fl : List β) (offset : Int) : Option Ptr :=
  if offset = InvalidFileIndex then some .null
  else if 0 ≤ offset ∧ offset < fl.length then some (.filePtr offset.toNat)
  else none

/-- `SimpleFileMapper<write>::getDataAtOffset` (lines 277-287): assert the
offset is below mapped-plus-buffer size or is `Invalid`; `nullptr` at
`Invalid`; otherwise a pointer into the mapping (offset below the mapped
size) or into the buffer.  A failed assert or a negative offset is `none`. -/
def getDataAtOffset (st : SimpleFileMapper β) (offset : Int) : Option Ptr :=
  if offset < (st.file.length : Int) + st.buffer.length ∨ offset = InvalidFileIndex then
    if offset = InvalidFileIndex then some .null
    else if offset < 0 then none
    else if offset < (st.file.length : Int) then some (.filePtr offset.toNat)
    else some (.bufPtr (offset - st.file.length).toNat)
  else none

/-- Read `k` cells through a pointer; defined only while the read stays inside
the single contiguous region the pointer addresses. -/
def derefBytes (st : SimpleFileMapper β) (p : Ptr) (k : Nat) : Option (List β) :=
  match p with
  | .null => none
  | .filePtr i => if i + k ≤ st.file.length then some ((st.file.drop i).take k) else none
  | .bufPtr i => if i + k ≤ st.buffer.length then some ((st.buffer.drop i).take k) else none

/-- Read the single cell at distance `j` from the pointer. -/
def derefCell (st : SimpleFileMapper β) (p : Ptr) (j : Nat) : Option β :=
  match p with
  | .null => none
  | .filePtr i => st.file[i + j]?
  | .bufPtr i => st.buffer[i + j]?

/-- Write one cell through the pointer at distance `j` (the source's
write-through mutation `fileIndex[indexNum] = …`). -/
def derefSet (st : SimpleFileMapper β) (p : Ptr) (j : Nat) (v : β) :
    Option (SimpleFileMapper β) :=
  match p with
  | .null => none
  | .filePtr i =>
    if i + j < st.file.length then some { st with file := st.file.set (i + j) v } else none
  | .bufPtr i =>
    if i + j < st.buffer.length then some { st with buffer := st.buffer.set (i + j) v } else none

/-- The logical byte sequence a reader observes: the mapped file followed by
the buffer. -/
def logical (st : SimpleFileMapper β) : List β := st.file ++ st.buffer

end SimpleFileMapper

/-- A sequence of `FixedSizeFileMapper::write` calls (line 358-360 delegating
to `dataFile.write`), as used when appending records `vs` one after the
other; the flush flags are discarded as the callers in the claim do. -/
def writeValues {β : Type} (maxBuf : Nat) :
    List (List β) → SimpleFileMapper β → Option (SimpleFileMapper β)
  | [], st => some st
  | v :: rest, st =>
    (SimpleFileMapper.write maxBuf st v).bind fun p => writeValues maxBuf rest p.1

namespace FixedSizeFileMapper

variable {β : Type}

/-- `FixedSizeFileMapper::getPos` (lines 308-310): `index * sizeof(T)`, with
`sizeof(T)` measured in cells (`s`). -/
def getPos (s : Nat) (index : Int) : Int := index * s

/-- `FixedSizeFileMapper::size` (lines 362-365): `dataFile.size() / sizeof(T)`
with C++ `int64_t` division (the operands are non-negative). -/
def size (s : Nat) (st : SimpleFileMapper β) : Int := SimpleFileMapper.size st / s

/-- `FixedSizeFileMapper::operator[]` (lines 321-332): assert the index is
below `size()`, then the data pointer at `getPos(index)`. -/
def get (s : Nat) (st : SimpleFileMapper β) (index : Int) : Option SimpleFileMapper.Ptr :=
  if index < size s st then SimpleFileMapper.getDataAtOffset st (getPos s index) else none

/-- Dereferencing the typed pointer `operator[]` returns: the whole
`sizeof(T)`-cell record it addresses. -/
def readRecord (s : Nat) (st : SimpleFileMapper β) (index : Int) : Option (List β) :=
  (get s st index).bind fun p => SimpleFileMapper.derefBytes st p s

/-- `FixedSizeFileMapper::truncate` (lines 371-373). -/
def truncate [Zero β] (s : Nat) (st : SimpleFileMapper β) (index : Int) :
    SimpleFileMapper β :=
  SimpleFileMapper.truncate st (getPos s index)

/-- `FixedSizeFileMapper::seek` (lines 346-348). -/
def seek (s : Nat) (st : SimpleFileMapper β) (index : Int) : SimpleFileMapper β :=
  SimpleFileMapper.seek st (getPos s index)

end FixedSizeFileMapper

/-- The `ArrayStore` operations of spec §4.2, each delegated to the underlying
byte store exactly as `FixedSizeFileMapper` does (`append` = `write`,
`truncate(i)` = byte-store truncate at `i·sizeof(T)`, `seek(i)` likewise,
`reload`/`flush` = `clearBuffer`, `seek_end`). -/
inductive ASOp (β : Type) where
  | append (v : List β)
  | truncateA (i : Nat)
  | seekA (i : Nat)
  | seekEndA
  | flushA
deriving DecidableEq

/-- One `ArrayStore` operation acting on the underlying byte store. -/
def ASOp.step {β : Type} [Zero β] (maxBuf s : Nat) (st : SimpleFileMapper β) :
    ASOp β → Option (SimpleFileMapper β)
  | .append v => (SimpleFileMapper.write maxBuf st v).map Prod.fst
  | .truncateA i => some (FixedSizeFileMapper.truncate s st (i : Int))
  | .seekA i => some (FixedSizeFileMapper.seek s st (i : Int))
  | .seekEndA => some (SimpleFileMapper.seekEnd st)
  | .flushA => some (SimpleFileMapper.clearBuffer st)

/-- A run of `ArrayStore` operations. -/
def applyAS {β : Type} [Zero β] (maxBuf s : Nat) :
    List (ASOp β) → SimpleFileMapper β → Option (SimpleFileMapper β)
  | [], st => some st
  | op :: rest, st => (ASOp.step maxBuf s st op).bind (applyAS maxBuf s rest)

/-- `ASOp.append` records carry exactly `sizeof(T)` cells. -/
def ASOp.sized {β : Type} (s : Nat) : ASOp β → Prop
  | .append v => v.length = s
  | _ => True

/-- State of `IndexedFileMapper<write, T...>` (lines 412-578) with
`indexCount = N`: the byte-granular data file, and the index file whose cells
are `OffsetType` slots, a `FileIndex<N>` record occupying `N` cells. -/
structure IndexedFileMapper (N : Nat) where
  dataFile : SimpleFileMapper Nat
  indexFile : SimpleFileMapper Int
deriving DecidableEq, Repr

namespace IndexedFileMapper

variable {N : Nat}

/-- `IndexedFileMapper::size` (lines 470-472): `indexFile.size()`. -/
def size (st : IndexedFileMapper N) : Int :=
  FixedSizeFileMapper.size N st.indexFile

/-- The entry count as a natural number (`size` with both operands cast
down; they agree, see `size_eq_lenNat`). -/
def lenNat (st : IndexedFileMapper N) : Nat :=
  (st.indexFile.file.length + st.indexFile.buffer.length) / N

/-- `IndexedFileMapper::getOffsets` (lines 466-468): `*indexFile[index]`. -/
def getOffsets (st : IndexedFileMapper N) (index : Nat) : Option (List Int) :=
  FixedSizeFileMapper.readRecord N st.indexFile (index : Int)

/-- `IndexedFileMapper::writeNewImp` (lines 421-430): assert the payload
length is a multiple of `alignof(T0)` (`align0`), record the data cursor as
slot 0 with `InvalidFileIndex` in the remaining slots, append that record to
the index file, then append the payload to the data file. -/
def writeNewImp (maxBuf align0 : Nat) (st : IndexedFileMapper N) (bytes : List Nat) :
    Option (IndexedFileMapper N) :=
  if bytes.length % align0 = 0 then
    let fileIndex : List Int :=
      SimpleFileMapper.getWriteOffset st.dataFile :: List.replicate (N - 1) InvalidFileIndex
    (SimpleFileMapper.write maxBuf st.indexFile fileIndex).bind fun q =>
      (SimpleFileMapper.write maxBuf st.dataFile bytes).map fun r =>
        { dataFile := r.1, indexFile := q.1 }
  else none

/-- `IndexedFileMapper::writeUpdateImp` (lines 432-441): the static asserts
`0 < indexNum < indexCount` and the alignment assert as guards; then set slot
`i` of record `addressNum` to the data cursor through the pointer
`*indexFile[addressNum]` and append the payload to the data file. -/
def writeUpdateImp (maxBuf : Nat) (align : Nat → Nat) (i addressNum : Nat)
    (st : IndexedFileMapper N) (bytes : List Nat) : Option (IndexedFileMapper N) :=
  if 1 ≤ i ∧ i < N ∧ bytes.length % align i = 0 then
    (FixedSizeFileMapper.get N st.indexFile (addressNum : Int)).bind fun p =>
      (SimpleFileMapper.derefSet st.indexFile p i
          (SimpleFileMapper.getWriteOffset st.dataFile)).bind fun idx2 =>
        (SimpleFileMapper.write maxBuf st.dataFile bytes).map fun r =>
          { dataFile := r.1, indexFile := idx2 }
  else none

/-- `IndexedFileMapper::getOffset` (lines 443-450): read slot `indexNum` of
`*indexFile[index]`, asserting the stored offset is below `dataFile.size()`
or `Invalid`. -/
def getOffset (st : IndexedFileMapper N) (i index : Nat) : Option Int :=
  if i < N then
    (FixedSizeFileMapper.get N st.indexFile (index : Int)).bind fun p =>
      (SimpleFileMapper.derefCell st.indexFile p i).bind fun offset =>
        if offset < SimpleFileMapper.size st.dataFile ∨ offset = InvalidFileIndex
        then some offset else none
  else none

/-- `IndexedFileMapper::getDataAtIndex` (lines 521-535): assert
`index < size()`, then the data pointer at the stored offset. -/
def getDataAtIndex (st : IndexedFileMapper N) (i index : Nat) :
    Option SimpleFileMapper.Ptr :=
  if (index : Int) < size st then
    (getOffset st i index).bind fun offset =>
      SimpleFileMapper.getDataAtOffset st.dataFile offset
  else none

/-- `IndexedFileMapper::truncate` (lines 478-484): when `index < size()`,
read the offsets of entry `index`, truncate the index file to `index`
records, then truncate the data file to the stream-0 offset. -/
def truncate (st : IndexedFileMapper N) (index : Nat) : Option (IndexedFileMapper N) :=
  if (index : Int) < size st then
    (getOffsets st index).bind fun offsets =>
      (offsets[0]?).bind fun o =>
        some { indexFile := FixedSizeFileMapper.truncate N st.indexFile (index : Int),
               dataFile := SimpleFileMapper.truncate st.dataFile o }
  else some st

/-- `IndexedFileMapper::clearBuffer` (lines 461-464). -/
def clearBuffer (st : IndexedFileMapper N) : IndexedFileMapper N :=
  { indexFile := SimpleFileMapper.clearBuffer st.indexFile,
    dataFile := SimpleFileMapper.clearBuffer st.dataFile }

/-- `IndexedFileMapper::seekEnd` (lines 486-489). -/
def seekEnd (st : IndexedFileMapper N) : IndexedFileMapper N :=
  { indexFile := SimpleFileMapper.seekEnd st.indexFile,
    dataFile := SimpleFileMapper.seekEnd st.dataFile }

/-- `IndexedFileMapper::write(const nth_element<0> &)` (lines 501-503). -/
def write (maxBuf align0 : Nat) (st : IndexedFileMapper N) (bytes : List Nat) :
    Option (IndexedFileMapper N) :=
  writeNewImp maxBuf align0 st bytes

end IndexedFileMapper

/-- The `MultiStreamStore` operations the spec allows a writer to interleave:
append a primary record, attach an auxiliary record to an existing entry,
truncate, flush (`clearBuffer`, which `reload` also performs in write mode),
and `seek_end`. -/
inductive IFMOp where
  | writeNew (bytes : List Nat)
  | writeUpdate (i : Nat) (addressNum : Nat) (bytes : List Nat)
  | truncateOp (index : Nat)
  | flushOp
  | seekEndOp
deriving DecidableEq, Repr

/-- One `MultiStreamStore` operation. -/
def IFMOp.step {N : Nat} (maxBuf : Nat) (align : Nat → Nat)
    (st : IndexedFileMapper N) : IFMOp → Option (IndexedFileMapper N)
  | .writeNew bytes => IndexedFileMapper.write maxBuf (align 0) st bytes
  | .writeUpdate i k bytes => IndexedFileMapper.writeUpdateImp maxBuf align i k st bytes
  | .truncateOp k => IndexedFileMapper.truncate st k
  | .flushOp => some (IndexedFileMapper.clearBuffer st)
  | .seekEndOp => some (IndexedFileMapper.seekEnd st)

/-- A run of `MultiStreamStore` operations. -/
def applyIFM {N : Nat} (maxBuf : Nat) (align : Nat → Nat) :
    List IFMOp → IndexedFileMapper N → Option (IndexedFileMapper N)
  | [], st => some st
  | op :: rest, st => (IFMOp.step maxBuf align st op).bind (applyIFM maxBuf align rest)

/-- A freshly created pair of empty files (both cursors at offset 0, the end). -/
def emptyIFM (N : Nat) : IndexedFileMapper N := ⟨⟨[], [], 0⟩, ⟨[], [], 0⟩⟩

/-- A primary record has `sizeof(T0) ≥ 1` bytes: `writeNew` payloads are
nonempty (other operations are unconstrained). -/
def IFMOp.goodPayload : IFMOp → Prop
  | .writeNew bytes => bytes ≠ []
  | _ => True

/-- The `MultiStreamStore` writer invariant maintained by every allowed
operation: both cursors sit at the logical ends, the mapped prefix of the
index file and its full logical length are whole numbers of records, every
committed entry has a stream-0 slot holding a non-negative offset strictly
below the data size, and stream-0 offsets are strictly increasing in the
entry number. -/
structure IFMInv {N : Nat} (st : IndexedFileMapper N) : Prop where
  idxCursor : st.indexFile.writePos =
    (st.indexFile.file.length : Int) + st.indexFile.buffer.length
  dataCursor : st.dataFile.writePos =
    (st.dataFile.file.length : Int) + st.dataFile.buffer.length
  idxFileDvd : N ∣ st.indexFile.file.length
  idxTotalDvd : N ∣ st.indexFile.file.length + st.indexFile.buffer.length
  stream0lt : ∀ j : Nat,
    (j + 1) * N ≤ st.indexFile.file.length + st.indexFile.buffer.length →
    ∃ o : Int, (SimpleFileMapper.logical st.indexFile)[j * N]? = some o ∧
      0 ≤ o ∧ o < (st.dataFile.file.length : Int) + st.dataFile.buffer.length
  stream0mono : ∀ j1 j2 : Nat, ∀ o1 o2 : Int, j1 < j2 →
    (j2 + 1) * N ≤ st.indexFile.file.length + st.indexFile.buffer.length →
    (SimpleFileMapper.logical st.indexFile)[j1 * N]? = some o1 →
    (SimpleFileMapper.logical st.indexFile)[j2 * N]? = some o2 → o1 < o2

/-- `ArbitraryLengthData<MainType>::finalize` (lines 151-159) acting on the
staged `rawData`, with `A = alignof(MainType)`: when the length is not a
multiple of `A`, push zero bytes until it is. -/
def ArbitraryLengthData.finalize (A : Nat) (rawData : List Nat) : List Nat :=
  let charsToAdd := rawData.length % A
  if charsToAdd > 0 then rawData ++ List.replicate (A - charsToAdd) 0 else rawData

/-- `ArbitraryLengthData::size` (lines 147-149). -/
def ArbitraryLengthData.size (rawData : List Nat) : Int := rawData.length

/-- `RawBlock` (raw_block.hpp lines 16-30); `uint256` is modelled by its
value, machine integers by `Nat` (and `Int` for the signed `version`), since
only equality of the fields is at stake. -/
structure RawBlock where
  hash : Nat
  coinbaseOffset : Nat
  firstTxIndex : Nat
  txCount : Nat
  inputCount : Nat
  outputCount : Nat
  height : Nat
  version : Int
  timestamp : Nat
  bits : Nat
  nonce : Nat
  realSize : Nat
  baseSize : Nat
deriving DecidableEq, Repr

/-- `RawBlock::operator==` (raw_block.hpp lines 33-45), conjunct for
conjunct and in the source's order. -/
def RawBlock.beq (a b : RawBlock) : Bool :=
  a.firstTxIndex == b.firstTxIndex
  && a.txCount == b.txCount
  && a.inputCount == b.inputCount
  && a.outputCount == b.outputCount
  && a.height == b.height
  && a.hash == b.hash
  && a.version == b.version
  && a.timestamp == b.timestamp
  && a.bits == b.bits
  && a.nonce == b.nonce
  && a.coinbaseOffset == b.coinbaseOffset

/-- Modelled from the spec: `Blockchain::size()` and `Blockchain::operator[]`
are defined outside the repository sources (only the pybind11 caller is under
src).  The chain is modelled by its block count `n`, with the block of height
`h` represented by `h`; `size()` returns the count as an unsigned 32-bit
value, which the usual arithmetic conversions promote to signed `int64_t`
inside `chain.size() + i`.  The body mirrors the `__getitem__` lambda of
blockchain_py.cpp lines 38-47: a negative index is first remapped with the
C++ truncated-division remainder, then `static_cast<uint64_t>(i)` is compared
against the size, throwing `py::index_error` (`none`) when out of range. -/
def blockchainGetitem (n : Nat) (i : Int) : Option Int :=
  let i2 := if i < 0 then Int.tmod ((n : Int) + i) (n : Int) else i
  let posIndex : Nat := (i2 % (2 : Int) ^ 64).toNat
  if n ≤ posIndex then none else some i2

end blocksci

namespace blocksci

/-! ## Helper lemmas about the byte store -/

theorem overwrite_length {β : Type} (l : List β) (p : Nat) (v : List β)
    (h : p + v.length ≤ l.length) :
    (SimpleFileMapper.overwrite l p v).length = l.length := by
  unfold SimpleFileMapper.overwrite
  simp only [List.length_append, List.length_take, List.length_drop]
  omega

/-- Exhaustive description of the successful paths of
`SimpleFileMapper<write>::write`: either the whole payload overwrites into
the mapping, or the cursor is below the mapped end with an empty buffer and
the payload spills past the mapped end into the buffer, or the cursor is at
the logical end and the payload is appended to the buffer; in the latter two
cases the buffer is flushed exactly when it has grown strictly beyond
`maxBuf`. -/
theorem write_cases {β : Type} (maxBuf : Nat) (st st' : SimpleFileMapper β)
    (bytes : List β) (flag : Bool)
    (h : SimpleFileMapper.write maxBuf st bytes = some (st', flag)) :
    (flag = false ∧ st'.file.length = st.file.length ∧ st'.buffer = st.buffer ∧
      st'.writePos = st.writePos + bytes.length ∧
      0 ≤ st.writePos ∧ st.writePos + bytes.length ≤ (st.file.length : Int) ∧
      0 < bytes.length) ∨
    (st.buffer = [] ∧ 0 ≤ st.writePos ∧ st.writePos < (st.file.length : Int) ∧
      (st.file.length : Int) < st.writePos + bytes.length ∧
      (∃ r : Nat, 0 < r ∧ (r : Int) = st.writePos + (bytes.length : Int) - st.file.length ∧
        flag = decide (maxBuf < r) ∧ st'.writePos = st.writePos + bytes.length ∧
        ((maxBuf < r ∧ st'.file.length = st.file.length + r ∧ st'.buffer = []) ∨
         (¬maxBuf < r ∧ st'.file.length = st.file.length ∧ st'.buffer.length = r)))) ∨
    (st.writePos = (st.file.length : Int) + st.buffer.length ∧
      flag = decide (maxBuf < st.buffer.length + bytes.length) ∧
      st'.writePos = st.writePos + bytes.length ∧
      SimpleFileMapper.logical st' = SimpleFileMapper.logical st ++ bytes ∧
      ((maxBuf < st.buffer.length + bytes.length ∧
         st'.file = st.file ++ st.buffer ++ bytes ∧ st'.buffer = []) ∨
       (¬maxBuf < st.buffer.length + bytes.length ∧
         st'.file = st.file ∧ st'.buffer = st.buffer ++ bytes))) := by
  by_cases hA : st.writePos < (st.file.length : Int)
  · -- region (a) is entered
    have hws : SimpleFileMapper.writeSpace st = (st.file.length : Int) - st.writePos := by
      simp only [SimpleFileMapper.writeSpace, if_pos hA]
    simp only [SimpleFileMapper.write, if_pos hA, hws] at h
    set amt := min (bytes.length : Int) ((st.file.length : Int) - st.writePos) with hamt
    clear_value amt
    by_cases h0 : amt ≤ 0
    · rw [if_pos h0] at h; cases h
    rw [if_neg h0] at h
    by_cases hneg : st.writePos < 0
    · rw [if_pos hneg] at h; cases h
    rw [if_neg hneg] at h
    have hneg2 : 0 ≤ st.writePos := Int.not_lt.mp hneg
    have hamtle : amt ≤ (bytes.length : Int) := by rw [hamt]; exact min_le_left _ _
    have htake : (bytes.take amt.toNat).length = amt.toNat := by
      rw [List.length_take]; omega
    have hlen0 : (bytes.drop amt.toNat).length = bytes.length - amt.toNat :=
      List.length_drop _ _
    by_cases hrest : (bytes.drop amt.toNat).length = 0
    · rw [if_pos hrest] at h
      simp only [Option.some.injEq, Prod.mk.injEq] at h
      obtain ⟨rfl, rfl⟩ := h
      have hamtlen : amt = (bytes.length : Int) := by omega
      have hlenle : (bytes.length : Int) ≤ (st.file.length : Int) - st.writePos := by
        by_contra hcon
        have hflp : amt = (st.file.length : Int) - st.writePos := by rw [hamt]; omega
        omega
      left
      have htk : bytes.take amt.toNat = bytes := by
        apply List.take_of_length_le; omega
      refine ⟨rfl, ?_, rfl, ?_, ?_, ?_, ?_⟩
      · simp only [htk]
        exact overwrite_length _ _ _ (by omega)
      · show st.writePos + amt = st.writePos + (bytes.length : Int)
        omega
      · omega
      · omega
      · omega
    · rw [if_neg hrest] at h
      have hamtws : amt = (st.file.length : Int) - st.writePos := by
        rcases min_cases (bytes.length : Int) ((st.file.length : Int) - st.writePos) with
          ⟨he, hle⟩ | ⟨he, hle⟩
        · exfalso; apply hrest; omega
        · omega
      have hfile1 : (SimpleFileMapper.overwrite st.file st.writePos.toNat
          (bytes.take amt.toNat)).length = st.file.length := by
        apply overwrite_length
        rw [htake]
        omega
      simp only [SimpleFileMapper.write2] at h
      set st1 : SimpleFileMapper β :=
        { st with
          file := SimpleFileMapper.overwrite st.file st.writePos.toNat
            (bytes.take amt.toNat),
          writePos := st.writePos + amt } with hst1
      have hf1len : st1.file.length = st.file.length := hfile1
      have hb1 : st1.buffer = st.buffer := rfl
      have hpos1 : st1.writePos = st.writePos + amt := rfl
      by_cases hb : (st.file.length : Int) < st.buffer.length
      · -- region (b): the broken branch, its memcpy count is negative
        have hcond : (st.file.length : Int) ≤ st1.writePos ∧
            st1.writePos < (st1.buffer.length : Int) := by
          rw [hpos1, hb1]
          exact ⟨by omega, by omega⟩
        rw [if_pos hcond] at h
        have hws1 : SimpleFileMapper.writeSpace st1 = -(st.buffer.length : Int) := by
          have hc1 : ¬(st1.writePos < (st1.file.length : Int)) := by
            rw [hpos1, hf1len]; omega
          have hc2 : st1.writePos < (st1.file.length : Int) + st1.buffer.length := by
            rw [hpos1, hf1len, hb1]; omega
          simp only [SimpleFileMapper.writeSpace, if_neg hc1, if_pos hc2]
          omega
        rw [hws1] at h
        have hlt : min (((bytes.drop amt.toNat).length : Int))
            (-(st.buffer.length : Int)) < 0 := by omega
        rw [if_pos hlt] at h
        cases h
      · -- region (b) skipped; the tail append needs an empty buffer
        have hcond : ¬((st.file.length : Int) ≤ st1.writePos ∧
            st1.writePos < (st1.buffer.length : Int)) := by
          intro hcon
          rw [hpos1, hb1] at hcon
          omega
        rw [if_neg hcond] at h
        simp only [SimpleFileMapper.write3] at h
        by_cases hb0 : st.buffer.length = 0
        · have hbnil : st.buffer = [] := List.length_eq_zero.mp hb0
          have hg1 : st1.writePos = (st.file.length : Int) + st1.buffer.length := by
            rw [hpos1, hb1]; omega
          rw [if_pos hg1] at h
          simp only [Option.some.injEq, Prod.mk.injEq] at h
          obtain ⟨hst', rfl⟩ := h
          right; left
          have hr0 : 0 < (bytes.drop amt.toNat).length := by omega
          refine ⟨hbnil, by omega, hA, by omega, (bytes.drop amt.toNat).length, hr0,
            by omega, ?_, ?_, ?_⟩
          · simp [hb1, hbnil]
          · rw [← hst']
            split
            · simp only [SimpleFileMapper.clearBuffer, hpos1]
              omega
            · simp only [hpos1]
              omega
          · rw [← hst']
            split
            next hc =>
              rw [decide_eq_true_eq] at hc
              left
              have hcc : maxBuf < (bytes.drop amt.toNat).length := by
                simpa [hb1, hbnil] using hc
              refine ⟨hcc, ?_, ?_⟩
              · simp [SimpleFileMapper.clearBuffer, hb1, hbnil, hf1len]
              · simp [SimpleFileMapper.clearBuffer]
            next hc =>
              rw [decide_eq_true_eq] at hc
              right
              have hcc : ¬ maxBuf < (bytes.drop amt.toNat).length := by
                intro hx
                exact hc (by simpa [hb1, hbnil] using hx)
              refine ⟨hcc, ?_, ?_⟩
              · exact hf1len
              · simp [hb1, hbnil]
        · have hg1 : ¬(st1.writePos = (st.file.length : Int) + st1.buffer.length) := by
            rw [hpos1, hb1]
            omega
          rw [if_neg hg1] at h
          cases h
  · -- the cursor is not below the mapped end
    simp only [SimpleFileMapper.write, if_neg hA, SimpleFileMapper.write2] at h
    by_cases hb : (st.file.length : Int) ≤ st.writePos ∧
        st.writePos < (st.buffer.length : Int)
    · rw [if_pos hb] at h
      have hws : SimpleFileMapper.writeSpace st =
          st.writePos - (st.file.length : Int) - st.buffer.length := by
        have hc2 : st.writePos < (st.file.length : Int) + st.buffer.length := by omega
        simp only [SimpleFileMapper.writeSpace, if_neg hA, if_pos hc2]
      rw [hws] at h
      have hlt : min ((bytes.length : Int))
          (st.writePos - (st.file.length : Int) - st.buffer.length) < 0 := by omega
      rw [if_pos hlt] at h
      cases h
    · rw [if_neg hb] at h
      simp only [SimpleFileMapper.write3] at h
      by_cases hg : st.writePos = (st.file.length : Int) + st.buffer.length
      · rw [if_pos hg] at h
        simp only [Option.some.injEq, Prod.mk.injEq] at h
        obtain ⟨hst', rfl⟩ := h
        right; right
        refine ⟨hg, by simp, ?_, ?_, ?_⟩
        · rw [← hst']
          split
          · simp [SimpleFileMapper.clearBuffer]
          · simp
        · rw [← hst']
          split
          · simp [SimpleFileMapper.clearBuffer, SimpleFileMapper.logical]
          · simp [SimpleFileMapper.logical]
        · rw [← hst']
          split
          next hc =>
            rw [decide_eq_true_eq, List.length_append] at hc
            left
            refine ⟨hc, ?_, ?_⟩
            · simp [SimpleFileMapper.clearBuffer, List.append_assoc]
            · simp [SimpleFileMapper.clearBuffer]
          next hc =>
            rw [decide_eq_true_eq, List.length_append] at hc
            right
            exact ⟨hc, rfl, rfl⟩
      · rw [if_neg hg] at h
        cases h

theorem size_eq_logical {β : Type} (st : SimpleFileMapper β) :
    SimpleFileMapper.size st = ((SimpleFileMapper.logical st).length : Int) := by
  simp [SimpleFileMapper.size, SimpleFileMapper.baseSize, SimpleFileMapper.logical]

theorem invalid_value : InvalidFileIndex = 9223372036854775807 := by decide

/-- Reading back the record `operator[] k` points at, when the mapped prefix
holds a whole number of records and the record fits inside the logical
contents: the `sizeof(T)`-cell slice starting at `k * sizeof(T)`. -/
theorem readRecord_eq {β : Type} (s : Nat) (st : SimpleFileMapper β) (k : Nat)
    (hs : 0 < s) (hdvd : s ∣ st.file.length)
    (hk : (k + 1) * s ≤ (SimpleFileMapper.logical st).length)
    (hbig : (((SimpleFileMapper.logical st).length : Nat) : Int) ≤ InvalidFileIndex) :
    FixedSizeFileMapper.readRecord s st (k : Int) =
      some (((SimpleFileMapper.logical st).drop (k * s)).take s) := by
  have hlen : (SimpleFileMapper.logical st).length = st.file.length + st.buffer.length := by
    simp [SimpleFileMapper.logical]
  have hks : k * s + s ≤ st.file.length + st.buffer.length := by
    have he : (k + 1) * s = k * s + s := by ring
    omega
  have hkpos : (k : Int) < FixedSizeFileMapper.size s st := by
    rw [FixedSizeFileMapper.size, size_eq_logical, hlen]
    rw [show ((st.file.length + st.buffer.length : Nat) : Int) / (s : Int) =
      (((st.file.length + st.buffer.length) / s : Nat) : Int) from (Int.natCast_div _ _).symm]
    have hq : k + 1 ≤ (st.file.length + st.buffer.length) / s :=
      (Nat.le_div_iff_mul_le hs).mpr (by omega)
    exact_mod_cast hq
  unfold FixedSizeFileMapper.readRecord FixedSizeFileMapper.get
  rw [if_pos hkpos]
  have hgp : FixedSizeFileMapper.getPos s (k : Int) = ((k * s : Nat) : Int) := by
    rw [FixedSizeFileMapper.getPos]; push_cast; ring
  rw [hgp]
  have hInv := invalid_value
  have hne : ¬((k * s : Nat) : Int) = InvalidFileIndex := by
    have h1 : k * s < st.file.length + st.buffer.length := by omega
    omega
  unfold SimpleFileMapper.getDataAtOffset
  rw [if_pos (Or.inl (by omega)), if_neg hne, if_neg (by omega)]
  by_cases hcase : ((k * s : Nat) : Int) < (st.file.length : Int)
  · rw [if_pos hcase]
    have hklt : k * s < st.file.length := by exact_mod_cast hcase
    have hwhole : k * s + s ≤ st.file.length := by
      obtain ⟨m, hm⟩ := hdvd
      have hkm : k < m := by
        by_contra hh
        push_neg at hh
        have hmle : m * s ≤ k * s := Nat.mul_le_mul_right s hh
        have hcomm : s * m = m * s := Nat.mul_comm _ _
        omega
      have hle2 : (k + 1) * s ≤ m * s := Nat.mul_le_mul_right s hkm
      have hcomm : s * m = m * s := Nat.mul_comm _ _
      have he : (k + 1) * s = k * s + s := by ring
      omega
    simp only [Option.some_bind, SimpleFileMapper.derefBytes, Int.toNat_natCast]
    rw [if_pos hwhole]
    congr 1
    have hd1 : k * s ≤ st.file.length := by omega
    have ht1 : s ≤ (st.file.length - k * s) := by omega
    rw [SimpleFileMapper.logical, List.drop_append_of_le_length hd1,
      List.take_append_of_le_length (by rw [List.length_drop]; omega)]
  · rw [if_neg hcase]
    have hge : st.file.length ≤ k * s := by
      by_contra hh
      push_neg at hh
      exact hcase (by exact_mod_cast hh)
    have htn : (((k * s : Nat) : Int) - (st.file.length : Int)).toNat =
        k * s - st.file.length := by omega
    simp only [Option.some_bind, SimpleFileMapper.derefBytes, htn]
    rw [if_pos (show k * s - st.file.length + s ≤ st.buffer.length from by omega)]
    congr 1
    have hsplit : k * s = st.file.length + (k * s - st.file.length) := by omega
    rw [SimpleFileMapper.logical, hsplit, List.drop_append]
    have hred : st.file.length + (k * s - st.file.length) - st.file.length =
        k * s - st.file.length := by omega
    rw [hred]

/-- The length of a flattening of records all of length `s`. -/
theorem flatten_length_const {β : Type} (s : Nat) :
    ∀ vs : List (List β), (∀ v ∈ vs, v.length = s) →
      vs.flatten.length = vs.length * s
  | [], _ => by simp
  | v :: tl, hv => by
    have h1 : v.length = s := hv v (by simp)
    have h2 := flatten_length_const s tl (fun w hw => hv w (by simp [hw]))
    simp [h1, h2]
    ring

/-- The `s`-cell slice of a flattening of `s`-cell records at record `i` is
record `i`. -/
theorem flatten_slice {β : Type} (s : Nat) :
    ∀ (vs : List (List β)) (i : Nat) (hlen : ∀ v ∈ vs, v.length = s)
      (hi : i < vs.length),
      ((vs.flatten).drop (i * s)).take s = vs[i]
  | [], i, _, hi => by cases hi
  | v :: tl, 0, hlen, _ => by
    have h1 : v.length = s := hlen v (by simp)
    simp only [List.flatten_cons, Nat.zero_mul, List.drop_zero]
    rw [← h1, List.take_left]
    rfl
  | v :: tl, i + 1, hlen, hi => by
    have h1 : v.length = s := hlen v (by simp)
    have h2 := flatten_slice s tl i (fun w hw => hlen w (by simp [hw]))
      (by simpa using hi)
    simp only [List.flatten_cons]
    rw [show (i + 1) * s = v.length + i * s from by rw [h1]; ring, List.drop_append]
    rw [h2]
    rfl

/-- Invariant of a run of appends with the cursor at the logical end: the
logical contents grow by exactly the appended records, the cursor stays at
the end, and the `sizeof(T)`-divisibility of the mapped prefix and of the
logical length are preserved. -/
theorem writeValues_spec {β : Type} (maxBuf s : Nat) :
    ∀ (vs : List (List β)) (st st' : SimpleFileMapper β),
    writeValues maxBuf vs st = some st' →
    st.writePos = (st.file.length : Int) + st.buffer.length →
    (∀ v ∈ vs, v.length = s) →
    s ∣ st.file.length → s ∣ (st.file.length + st.buffer.length) →
    SimpleFileMapper.logical st' = SimpleFileMapper.logical st ++ vs.flatten ∧
    st'.writePos = (st'.file.length : Int) + st'.buffer.length ∧
    s ∣ st'.file.length ∧ s ∣ (st'.file.length + st'.buffer.length)
  | [], st, st', h, hwf, _, hd1, hd2 => by
    simp only [writeValues, Option.some.injEq] at h
    subst h
    exact ⟨by simp, hwf, hd1, hd2⟩
  | v :: tl, st, st', h, hwf, hlen, hd1, hd2 => by
    simp only [writeValues] at h
    cases hw : SimpleFileMapper.write maxBuf st v with
    | none => rw [hw] at h; cases h
    | some p =>
      rw [hw] at h
      simp only [Option.some_bind] at h
      obtain ⟨st1, flag⟩ := p
      have hv : v.length = s := hlen v (by simp)
      rcases write_cases maxBuf st st1 v flag hw with
        ⟨_, _, _, _, _, hle, hpos⟩ | ⟨_, _, hlt, _, _⟩ | ⟨hg, _, hwp, hlog, hbr⟩
      · exfalso; omega
      · exfalso; omega
      · have hcur : st1.writePos = (st1.file.length : Int) + st1.buffer.length := by
          rcases hbr with ⟨_, hfe, hbe⟩ | ⟨_, hfe, hbe⟩
          · rw [hfe, hbe, hwp]
            simp only [List.length_append, List.length_nil]
            push_cast
            omega
          · rw [hfe, hbe, hwp]
            simp only [List.length_append]
            push_cast
            omega
        have hda : s ∣ st1.file.length := by
          rcases hbr with ⟨_, hfe, _⟩ | ⟨_, hfe, _⟩
          · rw [hfe]
            simp only [List.length_append, hv]
            exact Nat.dvd_add hd2 (dvd_refl s)
          · rw [hfe]; exact hd1
        have hdb : s ∣ st1.file.length + st1.buffer.length := by
          rcases hbr with ⟨_, hfe, hbe⟩ | ⟨_, hfe, hbe⟩
          · rw [hfe, hbe]
            simp only [List.length_append, List.length_nil, Nat.add_zero, hv]
            exact Nat.dvd_add hd2 (dvd_refl s)
          · rw [hfe, hbe]
            simp only [List.length_append, hv, ← Nat.add_assoc]
            exact Nat.dvd_add hd2 (dvd_refl s)
        obtain ⟨hl2, hwf2, hda2, hdb2⟩ :=
          writeValues_spec maxBuf s tl st1 st' h hcur
            (fun w hw2 => hlen w (by simp [hw2])) hda hdb
        refine ⟨?_, hwf2, hda2, hdb2⟩
        rw [hl2, hlog, List.flatten_cons, List.append_assoc]

/-! ## Claim C1 -/

/-- Claim C1 (code bug): with an empty mapped file, a two-byte buffer and the
cursor seeked to 1 — a state the spec explicitly allows (`seek` anywhere in
`[0, size]`, then `append`) and the claim's region (b) — `writeSpace` is the
negative value `(writePos - fileEnd) - buffer.size() = -1`, so `write` feeds a
negative count to `memcpy` (undefined behaviour, modelled `none`) instead of
overwriting buffer position 1 and advancing the cursor to 2 as the claim
requires. -/
theorem c1_write_buffer_region_bug :
    SimpleFileMapper.writeSpace (⟨[], [10, 11], 1⟩ : SimpleFileMapper Nat) = -1 ∧
    SimpleFileMapper.write SimpleFileMapper.maxBufferSize
      (⟨[], [10, 11], 1⟩ : SimpleFileMapper Nat) [7] = none := by
  constructor
  · decide
  · decide

/-! ## Claim C2 -/

/-- Claim C2: an `ArrayStore` over records of `sizeof(T) = s` cells, starting
empty with the cursor at the end, after appending `v₀, …, vₙ₋₁` in order
returns `vᵢ` bitwise when index `i < n` is read — whether or not any subset
of the appends triggered a buffer flush (`maxBuf` is arbitrary, so every
flush pattern the threshold can produce is covered).  The total size is
assumed to stay within `int64_t` range, as it must for the mapped file to
exist at all. -/
theorem c2_arraystore_roundtrip (maxBuf s : Nat) (hs : 0 < s)
    (vs : List (List Nat)) (hlen : ∀ v ∈ vs, v.length = s)
    (st' : SimpleFileMapper Nat)
    (h : writeValues maxBuf vs ⟨[], [], 0⟩ = some st')
    (hfit : ((vs.length * s : Nat) : Int) ≤ InvalidFileIndex)
    (i : Nat) (hi : i < vs.length) :
    FixedSizeFileMapper.readRecord s st' (i : Int) = some vs[i] := by
  obtain ⟨hlog, hwf, hd1, hd2⟩ :=
    writeValues_spec maxBuf s vs ⟨[], [], 0⟩ st' h (by simp) hlen (by simp) (by simp)
  have hlog2 : SimpleFileMapper.logical st' = vs.flatten := by
    simpa [SimpleFileMapper.logical] using hlog
  have hflen : (SimpleFileMapper.logical st').length = vs.length * s := by
    rw [hlog2]; exact flatten_length_const s vs hlen
  rw [readRecord_eq s st' i hs hd1 (by rw [hflen]; exact Nat.mul_le_mul_right s hi)
    (by rw [hflen]; exact hfit)]
  rw [hlog2, flatten_slice s vs i hlen hi]

/-- Witness for C2 with `maxBuf = 0`, which forces a flush on every append:
appending records `[7]`, `[11]`, `[13]` and reading index 2 yields `[13]`. -/
theorem c2_arraystore_roundtrip_witness :
    FixedSizeFileMapper.readRecord 1 (⟨[7, 11, 13], [], 3⟩ : SimpleFileMapper Nat)
      ((2 : Nat) : Int) = some [13] := by
  have h := c2_arraystore_roundtrip 0 1 (by decide) [[7], [11], [13]]
    (by intro v hv; fin_cases hv <;> rfl) ⟨[7, 11, 13], [], 3⟩ (by decide)
    (by decide) 2 (by decide)
  simpa using h

/-! ## Claim C3 -/

/-- Every `ArrayStore` operation preserves the store discipline: the cursor
is non-negative and a multiple of `sizeof(T)`, and the logical length is a
multiple of `sizeof(T)`. -/
theorem ASOp_step_inv {β : Type} [Zero β] (maxBuf s : Nat)
    (st st' : SimpleFileMapper β) (op : ASOp β) (hsz : ASOp.sized s op)
    (h : ASOp.step maxBuf s st op = some st')
    (h1 : 0 ≤ st.writePos) (h2 : (s : Int) ∣ st.writePos)
    (h3 : s ∣ (st.file.length + st.buffer.length)) :
    0 ≤ st'.writePos ∧ (s : Int) ∣ st'.writePos ∧
      s ∣ (st'.file.length + st'.buffer.length) := by
  cases op with
  | append v =>
    have hv : v.length = s := hsz
    cases hw : SimpleFileMapper.write maxBuf st v with
    | none => simp [ASOp.step, hw] at h
    | some p =>
      obtain ⟨st1, flag⟩ := p
      simp only [ASOp.step, hw, Option.map_some', Option.some.injEq] at h
      subst h
      have hdl : (s : Int) ∣ (v.length : Int) := by rw [hv]
      rcases write_cases maxBuf st st1 v flag hw with
        ⟨_, hfl, hbeq, hwp, _, _, _⟩ |
        ⟨_, _, _, _, r, hr0, hrint, _, hwp, hbr⟩ |
        ⟨hg, _, hwp, _, hbr⟩
      · refine ⟨by omega, ?_, ?_⟩
        · rw [hwp]; exact dvd_add h2 hdl
        · rw [hfl, hbeq]; exact h3
      · refine ⟨by omega, by rw [hwp]; exact dvd_add h2 hdl, ?_⟩
        have hInt : ((st1.file.length + st1.buffer.length : Nat) : Int) =
            st.writePos + (v.length : Int) := by
          rcases hbr with ⟨_, hfe, hbe⟩ | ⟨_, hfe, hbe⟩
          · rw [hfe, hbe]; push_cast [List.length_nil]; omega
          · rw [hfe, hbe]; push_cast; omega
        have : (s : Int) ∣ ((st1.file.length + st1.buffer.length : Nat) : Int) := by
          rw [hInt]; exact dvd_add h2 hdl
        exact_mod_cast this
      · refine ⟨by omega, by rw [hwp]; exact dvd_add h2 hdl, ?_⟩
        rcases hbr with ⟨_, hfe, hbe⟩ | ⟨_, hfe, hbe⟩
        · rw [hfe, hbe]
          simp only [List.length_append, List.length_nil, Nat.add_zero, hv]
          exact Nat.dvd_add h3 (dvd_refl s)
        · rw [hfe, hbe]
          simp only [List.length_append, hv, ← Nat.add_assoc]
          exact Nat.dvd_add h3 (dvd_refl s)
  | truncateA i =>
    simp only [ASOp.step, Option.some.injEq] at h
    subst h
    have hgp : FixedSizeFileMapper.getPos s (i : Int) = ((i * s : Nat) : Int) := by
      rw [FixedSizeFileMapper.getPos]; push_cast; ring
    have htn : (FixedSizeFileMapper.getPos s (i : Int)).toNat = i * s := by
      rw [hgp, Int.toNat_natCast]
    have hds : s ∣ i * s := ⟨i, Nat.mul_comm i s⟩
    refine ⟨le_max_left _ _, ?_, ?_⟩
    · rcases max_cases 0 (min st.writePos (FixedSizeFileMapper.getPos s (i : Int))) with
        ⟨he, _⟩ | ⟨he, _⟩
      · rw [FixedSizeFileMapper.truncate, SimpleFileMapper.truncate]
        simp only [he]
        exact dvd_zero _
      · rw [FixedSizeFileMapper.truncate, SimpleFileMapper.truncate]
        simp only [he]
        rcases min_cases st.writePos (FixedSizeFileMapper.getPos s (i : Int)) with
          ⟨he2, _⟩ | ⟨he2, _⟩
        · rw [he2]; exact h2
        · rw [he2, hgp]
          exact_mod_cast (Int.natCast_dvd_natCast.mpr hds)
    · rw [FixedSizeFileMapper.truncate, SimpleFileMapper.truncate]
      simp only [SimpleFileMapper.clearBuffer, List.length_nil, Nat.add_zero]
      split
      next hle =>
        rw [List.length_take, htn]
        rw [htn] at hle
        rw [Nat.min_eq_left hle]
        exact hds
      next hgt =>
        rw [List.length_append, List.length_replicate, htn]
        push_neg at hgt
        rw [htn] at hgt
        have heq : (st.file ++ st.buffer).length + (i * s - (st.file ++ st.buffer).length) =
            i * s := by omega
        rw [heq]
        exact hds
  | seekA i =>
    simp only [ASOp.step, Option.some.injEq] at h
    subst h
    have hgp : FixedSizeFileMapper.getPos s (i : Int) = ((i * s : Nat) : Int) := by
      rw [FixedSizeFileMapper.getPos]; push_cast; ring
    refine ⟨?_, ?_, h3⟩
    · rw [FixedSizeFileMapper.seek, SimpleFileMapper.seek]
      simp only [hgp]
      positivity
    · rw [FixedSizeFileMapper.seek, SimpleFileMapper.seek]
      simp only [hgp]
      exact_mod_cast Int.natCast_dvd_natCast.mpr ⟨i, Nat.mul_comm i s⟩
  | seekEndA =>
    simp only [ASOp.step, Option.some.injEq] at h
    subst h
    refine ⟨by simp [SimpleFileMapper.seekEnd]; positivity, ?_, h3⟩
    rw [SimpleFileMapper.seekEnd]
    have : ((st.file.length : Int) + st.buffer.length) =
        ((st.file.length + st.buffer.length : Nat) : Int) := by push_cast; ring
    simp only []
    rw [this]
    exact_mod_cast Int.natCast_dvd_natCast.mpr h3
  | flushA =>
    simp only [ASOp.step, Option.some.injEq] at h
    subst h
    refine ⟨h1, h2, ?_⟩
    simp only [SimpleFileMapper.clearBuffer, List.length_append, List.length_nil,
      Nat.add_zero]
    exact h3

/-- The `ArrayStore` discipline holds after any run of operations from a
fresh store. -/
theorem applyAS_inv {β : Type} [Zero β] (maxBuf s : Nat) :
    ∀ (ops : List (ASOp β)) (st st' : SimpleFileMapper β),
    applyAS maxBuf s ops st = some st' →
    (∀ op ∈ ops, ASOp.sized s op) →
    0 ≤ st.writePos → (s : Int) ∣ st.writePos →
    s ∣ (st.file.length + st.buffer.length) →
    0 ≤ st'.writePos ∧ (s : Int) ∣ st'.writePos ∧
      s ∣ (st'.file.length + st'.buffer.length)
  | [], st, st', h, _, h1, h2, h3 => by
    simp only [applyAS, Option.some.injEq] at h
    subst h
    exact ⟨h1, h2, h3⟩
  | op :: rest, st, st', h, hops, h1, h2, h3 => by
    simp only [applyAS] at h
    cases hs1 : ASOp.step maxBuf s st op with
    | none => rw [hs1] at h; cases h
    | some st1 =>
      rw [hs1] at h
      simp only [Option.some_bind] at h
      obtain ⟨g1, g2, g3⟩ := ASOp_step_inv maxBuf s st st1 op
        (hops op (by simp)) hs1 h1 h2 h3
      exact applyAS_inv maxBuf s rest st1 st' h
        (fun o ho => hops o (by simp [ho])) g1 g2 g3

/-- Claim C3: (1) the logical size of a byte store is always its on-disk
(mapped) size plus its buffer length; (2) a read at any offset `o` in
`[0, size())` yields the mapped byte at `o` when `o` is below the on-disk
size and the buffer byte at `o - on_disk_size` otherwise; (3) for every
`ArrayStore<T>` reachable from a fresh store by any sequence of
appends/truncates/seeks/flushes, `len() * sizeof(T)` equals the underlying
byte store's `size()` — the logical size stays a multiple of `sizeof(T)`. -/
theorem c3_size_invariants :
    (∀ (st : SimpleFileMapper Nat),
      SimpleFileMapper.size st = SimpleFileMapper.baseSize st + (st.buffer.length : Int)) ∧
    (∀ (st : SimpleFileMapper Nat) (o : Int), 0 ≤ o → o < SimpleFileMapper.size st →
      SimpleFileMapper.size st ≤ InvalidFileIndex →
      ((o < SimpleFileMapper.baseSize st →
        (SimpleFileMapper.getDataAtOffset st o).bind
          (fun p => SimpleFileMapper.derefCell st p 0) = st.file[o.toNat]?) ∧
       (SimpleFileMapper.baseSize st ≤ o →
        (SimpleFileMapper.getDataAtOffset st o).bind
          (fun p => SimpleFileMapper.derefCell st p 0) =
          st.buffer[(o - (st.file.length : Int)).toNat]?))) ∧
    (∀ (maxBuf s : Nat) (ops : List (ASOp Nat)) (st : SimpleFileMapper Nat),
      0 < s → (∀ op ∈ ops, ASOp.sized s op) →
      applyAS maxBuf s ops ⟨[], [], 0⟩ = some st →
      FixedSizeFileMapper.size s st * s = SimpleFileMapper.size st) := by
  refine ⟨fun st => rfl, ?_, ?_⟩
  · intro st o h0 hlt hbig
    have hsz : SimpleFileMapper.size st = (st.file.length : Int) + st.buffer.length := rfl
    have hInv := invalid_value
    have hov : o < (st.file.length : Int) + st.buffer.length ∨ o = InvalidFileIndex :=
      Or.inl (by omega)
    have hne : ¬o = InvalidFileIndex := by omega
    constructor
    · intro hf
      have hf2 : o < (st.file.length : Int) := hf
      unfold SimpleFileMapper.getDataAtOffset
      rw [if_pos hov, if_neg hne, if_neg (by omega), if_pos hf2]
      simp [SimpleFileMapper.derefCell]
    · intro hf
      have hf2 : ¬o < (st.file.length : Int) := by
        rw [SimpleFileMapper.baseSize] at hf
        omega
      unfold SimpleFileMapper.getDataAtOffset
      rw [if_pos hov, if_neg hne, if_neg (by omega), if_neg hf2]
      simp [SimpleFileMapper.derefCell]
  · intro maxBuf s ops st hs hops h
    obtain ⟨_, _, h3⟩ := applyAS_inv maxBuf s ops ⟨[], [], 0⟩ st h hops
      (by simp) (by simp) (by simp)
    have hsz : SimpleFileMapper.size st = ((st.file.length + st.buffer.length : Nat) : Int) := by
      rw [SimpleFileMapper.size, SimpleFileMapper.baseSize]; push_cast; ring
    rw [FixedSizeFileMapper.size, hsz]
    exact Int.ediv_mul_cancel (Int.natCast_dvd_natCast.mpr h3)

/-! ## Claim C4 -/

/-- Claim C4 (amended): a successful `write` returns `true` iff this call
grew the buffer strictly beyond `maxBuf` cells — i.e. the post-call logical
size exceeds the pre-call mapped size by more than `maxBuf` — in which case
the buffer was flushed in the same call (it is empty afterwards); otherwise
it returns `false` and no flush happens (the mapped size is unchanged).  The
hypothesis `st.buffer.length ≤ maxBuf` holds in every reachable state, as
the final conjunct shows it is re-established by every successful write.
The source compares with strict `>` (`buffer.size() > maxBufferSize`), not
the `≥ MaxBufferBytes` of the original claim. -/
theorem c4_flush_flag (maxBuf : Nat) (st st' : SimpleFileMapper Nat)
    (bytes : List Nat) (flag : Bool)
    (hbuf : st.buffer.length ≤ maxBuf)
    (h : SimpleFileMapper.write maxBuf st bytes = some (st', flag)) :
    (flag = true ↔ (st.file.length : Int) + maxBuf < SimpleFileMapper.size st') ∧
    (flag = true → st'.buffer = []) ∧
    (flag = false → st'.file.length = st.file.length) ∧
    st'.buffer.length ≤ maxBuf := by
  rcases write_cases maxBuf st st' bytes flag h with
    ⟨hf, hfl, hbeq, _, _, _, _⟩ |
    ⟨_, _, _, _, r, hr0, hrint, hflag, _, hbr⟩ |
    ⟨hg, hflag, _, hlog, hbr⟩
  · subst hf
    have hsz : SimpleFileMapper.size st' = (st.file.length : Int) + st.buffer.length := by
      rw [SimpleFileMapper.size, SimpleFileMapper.baseSize, hfl, hbeq]
    refine ⟨?_, ?_, ?_, ?_⟩
    · rw [hsz]
      constructor
      · intro hx; cases hx
      · intro hx; exfalso; omega
    · intro hx; cases hx
    · intro _; exact hfl
    · rw [hbeq]; exact hbuf
  · subst hflag
    have hsz : SimpleFileMapper.size st' = (st.file.length : Int) + r := by
      rcases hbr with ⟨_, hfe, hbe⟩ | ⟨_, hfe, hbe⟩ <;>
        rw [SimpleFileMapper.size, SimpleFileMapper.baseSize, hfe, hbe] <;>
        first
        | rfl
        | (simp; try omega)
        | omega
    refine ⟨?_, ?_, ?_, ?_⟩
    · rw [hsz]
      simp only [decide_eq_true_eq]
      omega
    · intro hx
      rw [decide_eq_true_eq] at hx
      rcases hbr with ⟨_, _, hbe⟩ | ⟨hfull, _, _⟩
      · exact hbe
      · exact absurd hx hfull
    · intro hx
      rw [decide_eq_false_iff_not] at hx
      rcases hbr with ⟨hfull, _, _⟩ | ⟨_, hfe, _⟩
      · exact absurd hfull hx
      · exact hfe
    · rcases hbr with ⟨_, _, hbe⟩ | ⟨hfull, _, hbe⟩
      · rw [hbe]; simp
      · omega
  · subst hflag
    have hsz : SimpleFileMapper.size st' =
        (st.file.length : Int) + (st.buffer.length + bytes.length) := by
      rcases hbr with ⟨_, hfe, hbe⟩ | ⟨_, hfe, hbe⟩ <;>
        rw [SimpleFileMapper.size, SimpleFileMapper.baseSize, hfe, hbe] <;>
        first
        | rfl
        | (simp; try omega)
        | omega
    refine ⟨?_, ?_, ?_, ?_⟩
    · rw [hsz]
      simp only [decide_eq_true_eq]
      omega
    · intro hx
      rw [decide_eq_true_eq] at hx
      rcases hbr with ⟨_, _, hbe⟩ | ⟨hfull, _, _⟩
      · exact hbe
      · exact absurd hx hfull
    · intro hx
      rw [decide_eq_false_iff_not] at hx
      rcases hbr with ⟨hfull, _, _⟩ | ⟨_, hfe, _⟩
      · exact absurd hfull hx
      · rw [hfe]
    · rcases hbr with ⟨_, _, hbe⟩ | ⟨hfull, _, hbe⟩
      · rw [hbe]; simp
      · rw [hbe]
        rw [List.length_append]
        omega

/-- Witness for C4 (amended) at `maxBuf = 1`: appending two bytes to an empty
store grows the buffer to 2 > 1, the call returns `true` and the buffer was
flushed (it is empty afterwards). -/
theorem c4_flush_flag_witness :
    (⟨[7, 8], [], 2⟩ : SimpleFileMapper Nat).buffer = [] :=
  (c4_flush_flag 1 ⟨[], [], 0⟩ ⟨[7, 8], [], 2⟩ [7, 8] true (by decide)
    (by decide)).2.1 rfl

/-- Counterexample to C4 as stated: a single append that brings the buffer to
exactly `MaxBufferBytes` (50000000 bytes) — "at least MaxBufferBytes" in the
claim's words — returns `false` and does not flush, because the source tests
`buffer.size() > maxBufferSize` strictly. -/
theorem c4_threshold_counterexample :
    SimpleFileMapper.write SimpleFileMapper.maxBufferSize
        (⟨[], [], 0⟩ : SimpleFileMapper Nat)
        (List.replicate SimpleFileMapper.maxBufferSize 0) =
      some (⟨[], List.replicate SimpleFileMapper.maxBufferSize 0,
        (SimpleFileMapper.maxBufferSize : Int)⟩, false) ∧
    SimpleFileMapper.maxBufferSize ≤
      (List.replicate SimpleFileMapper.maxBufferSize (0 : Nat)).length := by
  constructor
  · simp [SimpleFileMapper.write, SimpleFileMapper.write2, SimpleFileMapper.write3,
      SimpleFileMapper.clearBuffer, Nat.lt_irrefl]
  · simp

/-! ## Claim C5 -/

/-- `size()` agrees with the record count `lenNat` (C++ `int64_t` division of
non-negative operands is Euclidean division). -/
theorem size_eq_lenNat {N : Nat} (st : IndexedFileMapper N) :
    IndexedFileMapper.size st = ((IndexedFileMapper.lenNat st : Nat) : Int) := by
  simp only [IndexedFileMapper.size, IndexedFileMapper.lenNat, FixedSizeFileMapper.size,
    SimpleFileMapper.size, SimpleFileMapper.baseSize]
  rw [show ((st.indexFile.file.length : Int) + st.indexFile.buffer.length) =
    ((st.indexFile.file.length + st.indexFile.buffer.length : Nat) : Int) from by
      push_cast; ring]
  exact (Int.natCast_div _ _).symm

/-- An index `k` is below `size()` exactly when record `k` fits inside the
logical contents of the index file. -/
theorem size_lt_iff {N : Nat} (hN : 0 < N) (st : IndexedFileMapper N) (k : Nat) :
    (k : Int) < IndexedFileMapper.size st ↔
      (k + 1) * N ≤ st.indexFile.file.length + st.indexFile.buffer.length := by
  rw [size_eq_lenNat]
  constructor
  · intro h
    have hq : k < IndexedFileMapper.lenNat st := by exact_mod_cast h
    exact (Nat.le_div_iff_mul_le hN).mp hq
  · intro h
    have hq : k + 1 ≤ IndexedFileMapper.lenNat st := (Nat.le_div_iff_mul_le hN).mpr h
    exact_mod_cast hq

/-- A stream-0 cell position `j·N` never coincides with a stream-`i` cell
position `k·N + i` when `1 ≤ i < N`. -/
theorem cell_ne {N i j k : Nat} (hi1 : 1 ≤ i) (hiN : i < N) : j * N ≠ k * N + i := by
  rcases le_or_lt j k with hle | hlt
  · have h1 : j * N ≤ k * N := Nat.mul_le_mul_right N hle
    omega
  · have h1 : (k + 1) * N ≤ j * N := Nat.mul_le_mul_right N hlt
    have h2 : (k + 1) * N = k * N + N := by ring
    omega

/-- A multiple of `N` wedged between a multiple of `N` and the next one is
that multiple (used to locate the freshly appended record). -/
theorem mul_boundary {N j t : Nat} (hdvd : N ∣ t)
    (h1 : (j + 1) * N ≤ t + N) (h2 : ¬ (j + 1) * N ≤ t) : j * N = t := by
  obtain ⟨m, hm⟩ := hdvd
  have he : (j + 1) * N = j * N + N := by ring
  have h4 : m * N = N * m := Nat.mul_comm _ _
  rcases Nat.lt_or_ge j m with hlt2 | hge2
  · exfalso
    have h3 : (j + 1) * N ≤ m * N := Nat.mul_le_mul_right N hlt2
    omega
  · have h3 : m * N ≤ j * N := Nat.mul_le_mul_right N hge2
    omega

/-- `getOffsets` read back through `operator[]`: the `N`-slot record at
record index `k` of the index file, as a slice of its logical contents. -/
theorem getOffsets_eq {N : Nat} (hN : 0 < N) (st : IndexedFileMapper N) (k : Nat)
    (hdvd : N ∣ st.indexFile.file.length)
    (hk : (k + 1) * N ≤ st.indexFile.file.length + st.indexFile.buffer.length)
    (hbig : ((st.indexFile.file.length + st.indexFile.buffer.length : Nat) : Int)
      ≤ InvalidFileIndex) :
    IndexedFileMapper.getOffsets st k =
      some (((SimpleFileMapper.logical st.indexFile).drop (k * N)).take N) := by
  have hlen : (SimpleFileMapper.logical st.indexFile).length
      = st.indexFile.file.length + st.indexFile.buffer.length := by
    simp [SimpleFileMapper.logical]
  exact readRecord_eq N st.indexFile k hN hdvd (by rw [hlen]; exact hk)
    (by rw [hlen]; exact hbig)

/-- Effect of `SimpleFileMapper<write>::write` when the cursor sits at the
logical end (the discipline every appending store keeps): the payload lands
at the logical tail, the cursor advances by the payload length, and the
mapped length either is untouched or absorbs everything (a flush). -/
theorem write_at_end {β : Type} (maxBuf : Nat) (st1 st2 : SimpleFileMapper β)
    (bytes : List β) (flag : Bool)
    (hcur : st1.writePos = (st1.file.length : Int) + st1.buffer.length)
    (h : SimpleFileMapper.write maxBuf st1 bytes = some (st2, flag)) :
    SimpleFileMapper.logical st2 = SimpleFileMapper.logical st1 ++ bytes ∧
    st2.writePos = st1.writePos + bytes.length ∧
    st2.file.length + st2.buffer.length =
      st1.file.length + st1.buffer.length + bytes.length ∧
    (st2.file.length = st1.file.length ∨
      st2.file.length = st1.file.length + st1.buffer.length + bytes.length) := by
  rcases write_cases maxBuf st1 st2 bytes flag h with
    ⟨_, _, _, _, _, hle, hpos⟩ | ⟨_, _, hlt, _, _⟩ | ⟨_, _, hwp, hlog, hbr⟩
  · exfalso; omega
  · exfalso; omega
  · refine ⟨hlog, hwp, ?_, ?_⟩
    · rcases hbr with ⟨_, hfe, hbe⟩ | ⟨_, hfe, hbe⟩
      · rw [hfe, hbe]
        simp only [List.length_append, List.length_nil]
        omega
      · rw [hfe, hbe]
        simp only [List.length_append]
        omega
    · rcases hbr with ⟨_, hfe, _⟩ | ⟨_, hfe, _⟩
      · right
        rw [hfe]
        simp only [List.length_append]
      · left
        rw [hfe]

/-- Effect of `IndexedFileMapper::write` (`writeNewImp`) from a state whose
cursors sit at the logical ends: the `FileIndex` record `(data cursor,
Invalid, …, Invalid)` is appended to the index file and the payload to the
data file, each cursor advancing past its own append. -/
theorem writeNew_effect {N : Nat} (hN : 0 < N) (maxBuf align0 : Nat)
    (st st' : IndexedFileMapper N) (bytes : List Nat)
    (hInv : IFMInv st)
    (hstep : IndexedFileMapper.write maxBuf align0 st bytes = some st') :
    SimpleFileMapper.logical st'.indexFile =
      SimpleFileMapper.logical st.indexFile ++
        (SimpleFileMapper.getWriteOffset st.dataFile ::
          List.replicate (N - 1) InvalidFileIndex) ∧
    SimpleFileMapper.logical st'.dataFile =
      SimpleFileMapper.logical st.dataFile ++ bytes ∧
    st'.indexFile.writePos = st.indexFile.writePos + N ∧
    st'.dataFile.writePos = st.dataFile.writePos + bytes.length ∧
    N ∣ st'.indexFile.file.length ∧
    st'.indexFile.file.length + st'.indexFile.buffer.length =
      st.indexFile.file.length + st.indexFile.buffer.length + N ∧
    st'.dataFile.file.length + st'.dataFile.buffer.length =
      st.dataFile.file.length + st.dataFile.buffer.length + bytes.length := by
  simp only [IndexedFileMapper.write, IndexedFileMapper.writeNewImp] at hstep
  by_cases hal : bytes.length % align0 = 0
  swap
  · rw [if_neg hal] at hstep; cases hstep
  rw [if_pos hal] at hstep
  have hfilen : (SimpleFileMapper.getWriteOffset st.dataFile ::
      List.replicate (N - 1) InvalidFileIndex).length = N := by
    simp only [List.length_cons, List.length_replicate]
    omega
  cases hq : SimpleFileMapper.write maxBuf st.indexFile
      (SimpleFileMapper.getWriteOffset st.dataFile ::
        List.replicate (N - 1) InvalidFileIndex) with
  | none => rw [hq] at hstep; cases hstep
  | some q =>
    obtain ⟨q1, qf⟩ := q
    rw [hq] at hstep
    simp only [Option.some_bind] at hstep
    cases hr : SimpleFileMapper.write maxBuf st.dataFile bytes with
    | none => rw [hr] at hstep; cases hstep
    | some r =>
      obtain ⟨r1, rf⟩ := r
      rw [hr] at hstep
      simp only [Option.map_some'] at hstep
      injection hstep with hstep
      have hfi : st'.indexFile = q1 := by rw [← hstep]
      have hfd : st'.dataFile = r1 := by rw [← hstep]
      obtain ⟨hlogi, hwpi, htoti, hdisji⟩ :=
        write_at_end maxBuf st.indexFile q1 _ qf hInv.idxCursor hq
      obtain ⟨hlogd, hwpd, htotd, _⟩ :=
        write_at_end maxBuf st.dataFile r1 bytes rf hInv.dataCursor hr
      refine ⟨?_, ?_, ?_, ?_, ?_, ?_, ?_⟩
      · rw [hfi]; exact hlogi
      · rw [hfd]; exact hlogd
      · rw [hfi, hwpi, hfilen]
      · rw [hfd]; exact hwpd
      · rw [hfi]
        rcases hdisji with he | he
        · rw [he]; exact hInv.idxFileDvd
        · rw [he, hfilen]
          exact Nat.dvd_add hInv.idxTotalDvd dvd_rfl
      · rw [hfi, htoti, hfilen]
      · rw [hfd]; exact htotd

/-- Decoding `*indexFile[k]` (the typed pointer of `operator[]`) followed by
the write-through store to slot `i`: the logical index contents change by a
single `List.set` at cell `k·N + i`, and nothing else moves. -/
theorem derefSet_stream {N : Nat} (st : IndexedFileMapper N)
    (k i : Nat) (v : Int) (p : SimpleFileMapper.Ptr) (idx2 : SimpleFileMapper Int)
    (hk1 : (k + 1) * N ≤ st.indexFile.file.length + st.indexFile.buffer.length)
    (hbig : ((st.indexFile.file.length + st.indexFile.buffer.length + N : Nat) : Int)
      ≤ InvalidFileIndex)
    (hN : 0 < N)
    (hp : SimpleFileMapper.getDataAtOffset st.indexFile
      (FixedSizeFileMapper.getPos N (k : Int)) = some p)
    (hd : SimpleFileMapper.derefSet st.indexFile p i v = some idx2) :
    SimpleFileMapper.logical idx2 =
      (SimpleFileMapper.logical st.indexFile).set (k * N + i) v ∧
    idx2.file.length = st.indexFile.file.length ∧
    idx2.buffer.length = st.indexFile.buffer.length ∧
    idx2.writePos = st.indexFile.writePos := by
  have hgp : FixedSizeFileMapper.getPos N (k : Int) = ((k * N : Nat) : Int) := by
    rw [FixedSizeFileMapper.getPos]; push_cast; ring
  rw [hgp] at hp
  have hkN : k * N + N ≤ st.indexFile.file.length + st.indexFile.buffer.length := by
    have he : (k + 1) * N = k * N + N := by ring
    omega
  have hIv := invalid_value
  have hbigN : st.indexFile.file.length + st.indexFile.buffer.length + N
      ≤ 9223372036854775807 := by
    rw [hIv] at hbig
    exact_mod_cast hbig
  unfold SimpleFileMapper.getDataAtOffset at hp
  have hc1 : ((k * N : Nat) : Int) < (st.indexFile.file.length : Int) +
      st.indexFile.buffer.length ∨ ((k * N : Nat) : Int) = InvalidFileIndex := by
    left
    exact_mod_cast (show k * N < st.indexFile.file.length + st.indexFile.buffer.length
      from by omega)
  rw [if_pos hc1] at hp
  have hne : ¬ ((k * N : Nat) : Int) = InvalidFileIndex := by
    rw [hIv]
    intro hcontra
    have h2 : k * N = 9223372036854775807 := by exact_mod_cast hcontra
    omega
  rw [if_neg hne] at hp
  have hnneg : ¬ ((k * N : Nat) : Int) < 0 := by
    have h1 := Int.natCast_nonneg (k * N)
    omega
  rw [if_neg hnneg] at hp
  by_cases hcase : ((k * N : Nat) : Int) < (st.indexFile.file.length : Int)
  · rw [if_pos hcase] at hp
    injection hp with hp
    subst hp
    rw [Int.toNat_natCast] at hd
    simp only [SimpleFileMapper.derefSet] at hd
    by_cases hin : k * N + i < st.indexFile.file.length
    swap
    · rw [if_neg hin] at hd; cases hd
    rw [if_pos hin] at hd
    injection hd with hd
    refine ⟨?_, ?_, ?_, ?_⟩
    · rw [← hd]
      show st.indexFile.file.set (k * N + i) v ++ st.indexFile.buffer = _
      simp only [SimpleFileMapper.logical]
      rw [List.set_append_left _ _ hin]
    · rw [← hd]
      exact List.length_set _ _ _
    · rw [← hd]
    · rw [← hd]
  · rw [if_neg hcase] at hp
    injection hp with hp
    subst hp
    have hfle : st.indexFile.file.length ≤ k * N := by
      by_contra hcon
      push_neg at hcon
      exact hcase (by exact_mod_cast hcon)
    have htn : ((((k * N : Nat) : Int)) - (st.indexFile.file.length : Int)).toNat
        = k * N - st.indexFile.file.length := by omega
    rw [htn] at hd
    simp only [SimpleFileMapper.derefSet] at hd
    by_cases hin : k * N - st.indexFile.file.length + i < st.indexFile.buffer.length
    swap
    · rw [if_neg hin] at hd; cases hd
    rw [if_pos hin] at hd
    injection hd with hd
    refine ⟨?_, ?_, ?_, ?_⟩
    · rw [← hd]
      show st.indexFile.file ++ st.indexFile.buffer.set
          (k * N - st.indexFile.file.length + i) v = _
      simp only [SimpleFileMapper.logical]
      rw [List.set_append_right _ _
        (show st.indexFile.file.length ≤ k * N + i from by omega)]
      have hidx : k * N + i - st.indexFile.file.length
          = k * N - st.indexFile.file.length + i := by omega
      rw [hidx]
    · rw [← hd]
    · rw [← hd]
      exact List.length_set _ _ _
    · rw [← hd]

/-- Shape of the spec-modelled byte-store truncate at a non-negative offset
within the logical size: the logical prefix survives as the mapped file, the
buffer is gone, and the cursor is clamped. -/
theorem truncate_shape {β : Type} [Zero β] (st : SimpleFileMapper β) (o : Int)
    (h0 : 0 ≤ o) (hle : o ≤ (st.file.length : Int) + st.buffer.length) :
    (SimpleFileMapper.truncate st o).file = (SimpleFileMapper.logical st).take o.toNat ∧
    (SimpleFileMapper.truncate st o).buffer = [] ∧
    (SimpleFileMapper.truncate st o).writePos = max 0 (min st.writePos o) := by
  refine ⟨?_, rfl, rfl⟩
  simp only [SimpleFileMapper.truncate, SimpleFileMapper.clearBuffer]
  have hg : o.toNat ≤ (st.file ++ st.buffer).length := by
    simp only [List.length_append]
    omega
  rw [if_pos hg]
  rfl

/-- The freshly created pair of empty files satisfies the writer invariant. -/
theorem emptyIFM_inv (N : Nat) (hN : 0 < N) : IFMInv (emptyIFM N) := by
  refine ⟨rfl, rfl, ⟨0, rfl⟩, ⟨0, rfl⟩, ?_, ?_⟩
  · intro j hj
    exfalso
    have h1 : 0 < (j + 1) * N := Nat.mul_pos (Nat.succ_pos j) hN
    have h2 : (emptyIFM N).indexFile.file.length +
        (emptyIFM N).indexFile.buffer.length = 0 := rfl
    omega
  · intro j1 j2 o1 o2 hjj hle2 hc1 hc2
    exfalso
    have h1 : 0 < (j2 + 1) * N := Nat.mul_pos (Nat.succ_pos j2) hN
    have h2 : (emptyIFM N).indexFile.file.length +
        (emptyIFM N).indexFile.buffer.length = 0 := rfl
    omega

/-- One allowed `MultiStreamStore` operation preserves the writer invariant
and grows the index store by at most one record. -/
theorem IFMOp_step_inv {N : Nat} (hN : 0 < N) (maxBuf : Nat) (align : Nat → Nat)
    (st st' : IndexedFileMapper N) (op : IFMOp)
    (hInv : IFMInv st) (hgood : op.goodPayload)
    (hbig : ((st.indexFile.file.length + st.indexFile.buffer.length + N : Nat) : Int)
      ≤ InvalidFileIndex)
    (hstep : IFMOp.step maxBuf align st op = some st') :
    IFMInv st' ∧
      st'.indexFile.file.length + st'.indexFile.buffer.length ≤
        st.indexFile.file.length + st.indexFile.buffer.length + N := by
  have hlenlog : (SimpleFileMapper.logical st.indexFile).length =
      st.indexFile.file.length + st.indexFile.buffer.length := by
    simp [SimpleFileMapper.logical]
  cases op with
  | writeNew bytes =>
    simp only [IFMOp.step] at hstep
    simp only [IFMOp.goodPayload] at hgood
    obtain ⟨hlogi, hlogd, hwpi, hwpd, hdvd', htoti, htotd⟩ :=
      writeNew_effect hN maxBuf (align 0) st st' bytes hInv hstep
    have hblen : 0 < bytes.length := List.length_pos.mpr hgood
    refine ⟨⟨?_, ?_, hdvd', ?_, ?_, ?_⟩, ?_⟩
    · have h1 := hInv.idxCursor
      omega
    · have h1 := hInv.dataCursor
      omega
    · rw [htoti]
      exact Nat.dvd_add hInv.idxTotalDvd dvd_rfl
    · intro j hj
      rw [htoti] at hj
      rw [hlogi]
      by_cases hjo : (j + 1) * N ≤ st.indexFile.file.length + st.indexFile.buffer.length
      · obtain ⟨o, ho, hnn, hlt⟩ := hInv.stream0lt j hjo
        have hjlt : j * N < (SimpleFileMapper.logical st.indexFile).length := by
          rw [hlenlog]
          have he : (j + 1) * N = j * N + N := by ring
          omega
        refine ⟨o, ?_, hnn, ?_⟩
        · rw [List.getElem?_append, if_pos hjlt]
          exact ho
        · omega
      · have hje : j * N = st.indexFile.file.length + st.indexFile.buffer.length :=
          mul_boundary hInv.idxTotalDvd hj hjo
        have hnotlt : ¬ j * N < (SimpleFileMapper.logical st.indexFile).length := by
          rw [hlenlog]; omega
        have hzero : j * N - (SimpleFileMapper.logical st.indexFile).length = 0 := by
          rw [hlenlog]; omega
        refine ⟨SimpleFileMapper.getWriteOffset st.dataFile, ?_, ?_, ?_⟩
        · rw [List.getElem?_append, if_neg hnotlt, hzero, List.getElem?_cons_zero]
        · have h1 := hInv.dataCursor
          simp only [SimpleFileMapper.getWriteOffset]
          omega
        · have h1 := hInv.dataCursor
          simp only [SimpleFileMapper.getWriteOffset]
          omega
    · intro j1 j2 o1 o2 hjj hle2 hc1 hc2
      rw [htoti] at hle2
      rw [hlogi] at hc1 hc2
      by_cases hold : (j2 + 1) * N ≤ st.indexFile.file.length + st.indexFile.buffer.length
      · have hj2lt : j2 * N < (SimpleFileMapper.logical st.indexFile).length := by
          rw [hlenlog]
          have he : (j2 + 1) * N = j2 * N + N := by ring
          omega
        have hj1lt : j1 * N < (SimpleFileMapper.logical st.indexFile).length := by
          have h3 : j1 * N ≤ j2 * N := Nat.mul_le_mul_right N (Nat.le_of_lt hjj)
          omega
        rw [List.getElem?_append, if_pos hj1lt] at hc1
        rw [List.getElem?_append, if_pos hj2lt] at hc2
        exact hInv.stream0mono j1 j2 o1 o2 hjj hold hc1 hc2
      · have hje : j2 * N = st.indexFile.file.length + st.indexFile.buffer.length :=
          mul_boundary hInv.idxTotalDvd hle2 hold
        have hj1o : (j1 + 1) * N ≤
            st.indexFile.file.length + st.indexFile.buffer.length := by
          have h3 : (j1 + 1) * N ≤ j2 * N := Nat.mul_le_mul_right N hjj
          omega
        obtain ⟨o1', ho1', _, hlt1⟩ := hInv.stream0lt j1 hj1o
        have hj1lt : j1 * N < (SimpleFileMapper.logical st.indexFile).length := by
          rw [hlenlog]
          have he : (j1 + 1) * N = j1 * N + N := by ring
          omega
        rw [List.getElem?_append, if_pos hj1lt] at hc1
        have ho1e : o1' = o1 := Option.some.inj (ho1'.symm.trans hc1)
        have hnotlt : ¬ j2 * N < (SimpleFileMapper.logical st.indexFile).length := by
          rw [hlenlog]; omega
        have hzero : j2 * N - (SimpleFileMapper.logical st.indexFile).length = 0 := by
          rw [hlenlog]; omega
        rw [List.getElem?_append, if_neg hnotlt, hzero, List.getElem?_cons_zero] at hc2
        have ho2e : SimpleFileMapper.getWriteOffset st.dataFile = o2 :=
          Option.some.inj hc2
        have h1 := hInv.dataCursor
        simp only [SimpleFileMapper.getWriteOffset] at ho2e
        omega
    · omega
  | writeUpdate i k bytes =>
    simp only [IFMOp.step, IndexedFileMapper.writeUpdateImp] at hstep
    by_cases hg : 1 ≤ i ∧ i < N ∧ bytes.length % align i = 0
    swap
    · rw [if_neg hg] at hstep; cases hstep
    rw [if_pos hg] at hstep
    obtain ⟨hi1, hiN, -⟩ := hg
    cases hp : FixedSizeFileMapper.get N st.indexFile (k : Int) with
    | none => rw [hp] at hstep; cases hstep
    | some p =>
      rw [hp] at hstep
      simp only [Option.some_bind] at hstep
      cases hd : SimpleFileMapper.derefSet st.indexFile p i
          (SimpleFileMapper.getWriteOffset st.dataFile) with
      | none => rw [hd] at hstep; cases hstep
      | some idx2 =>
        rw [hd] at hstep
        simp only [Option.some_bind] at hstep
        cases hr : SimpleFileMapper.write maxBuf st.dataFile bytes with
        | none => rw [hr] at hstep; cases hstep
        | some r =>
          obtain ⟨r1, rf⟩ := r
          rw [hr] at hstep
          simp only [Option.map_some'] at hstep
          injection hstep with hstep
          have hfi : st'.indexFile = idx2 := by rw [← hstep]
          have hfd : st'.dataFile = r1 := by rw [← hstep]
          rw [FixedSizeFileMapper.get] at hp
          by_cases hks : (k : Int) < FixedSizeFileMapper.size N st.indexFile
          swap
          · rw [if_neg hks] at hp; cases hp
          rw [if_pos hks] at hp
          have hk1 : (k + 1) * N ≤
              st.indexFile.file.length + st.indexFile.buffer.length :=
            (size_lt_iff hN st k).mp hks
          obtain ⟨hset, hl2f, hl2b, hwp2⟩ :=
            derefSet_stream st k i _ p idx2 hk1 hbig hN hp hd
          obtain ⟨hlogd, hwpd, htotd, _⟩ :=
            write_at_end maxBuf st.dataFile r1 bytes rf hInv.dataCursor hr
          refine ⟨⟨?_, ?_, ?_, ?_, ?_, ?_⟩, ?_⟩
          · rw [hfi]
            have h1 := hInv.idxCursor
            omega
          · rw [hfd]
            have h1 := hInv.dataCursor
            omega
          · rw [hfi, hl2f]
            exact hInv.idxFileDvd
          · rw [hfi, hl2f, hl2b]
            exact hInv.idxTotalDvd
          · intro j hj
            rw [hfi] at hj
            rw [hl2f, hl2b] at hj
            rw [hfi, hfd, hset,
              List.getElem?_set_ne (Ne.symm (cell_ne hi1 hiN))]
            obtain ⟨o, ho, hnn, hlt⟩ := hInv.stream0lt j hj
            refine ⟨o, ho, hnn, ?_⟩
            omega
          · intro j1 j2 o1 o2 hjj hle2 hc1 hc2
            rw [hfi] at hle2 hc1 hc2
            rw [hl2f, hl2b] at hle2
            rw [hset, List.getElem?_set_ne (Ne.symm (cell_ne hi1 hiN))] at hc1 hc2
            exact hInv.stream0mono j1 j2 o1 o2 hjj hle2 hc1 hc2
          · rw [hfi]
            omega
  | truncateOp k =>
    simp only [IFMOp.step, IndexedFileMapper.truncate] at hstep
    by_cases hks : (k : Int) < IndexedFileMapper.size st
    swap
    · rw [if_neg hks] at hstep
      injection hstep with hstep
      rw [← hstep]
      exact ⟨hInv, by omega⟩
    rw [if_pos hks] at hstep
    have hk1 : (k + 1) * N ≤ st.indexFile.file.length + st.indexFile.buffer.length :=
      (size_lt_iff hN st k).mp hks
    have hkle : k * N ≤ st.indexFile.file.length + st.indexFile.buffer.length := by
      have he : (k + 1) * N = k * N + N := by ring
      omega
    have hbig0 : ((st.indexFile.file.length + st.indexFile.buffer.length : Nat) : Int)
        ≤ InvalidFileIndex := by
      have h1 : st.indexFile.file.length + st.indexFile.buffer.length
          ≤ st.indexFile.file.length + st.indexFile.buffer.length + N := by omega
      exact le_trans (by exact_mod_cast h1) hbig
    rw [getOffsets_eq hN st k hInv.idxFileDvd hk1 hbig0] at hstep
    simp only [Option.some_bind] at hstep
    have hhead : (((SimpleFileMapper.logical st.indexFile).drop (k * N)).take N)[0]?
        = (SimpleFileMapper.logical st.indexFile)[k * N]? := by
      rw [List.getElem?_take, if_pos hN, List.getElem?_drop, Nat.add_zero]
    obtain ⟨o, ho, hnn, hlt⟩ := hInv.stream0lt k hk1
    rw [hhead, ho] at hstep
    simp only [Option.some_bind] at hstep
    injection hstep with hstep
    have hfi : st'.indexFile = FixedSizeFileMapper.truncate N st.indexFile (k : Int) := by
      rw [← hstep]
    have hfd : st'.dataFile = SimpleFileMapper.truncate st.dataFile o := by
      rw [← hstep]
    have hgp : FixedSizeFileMapper.getPos N (k : Int) = ((k * N : Nat) : Int) := by
      rw [FixedSizeFileMapper.getPos]; push_cast; ring
    have hidxtr : FixedSizeFileMapper.truncate N st.indexFile (k : Int)
        = SimpleFileMapper.truncate st.indexFile ((k * N : Nat) : Int) := by
      simp only [FixedSizeFileMapper.truncate, hgp]
    obtain ⟨hfI, hbI, hwI⟩ := truncate_shape st.indexFile ((k * N : Nat) : Int)
      (Int.natCast_nonneg _) (by exact_mod_cast hkle)
    obtain ⟨hfD, hbD, hwD⟩ := truncate_shape st.dataFile o hnn (le_of_lt hlt)
    have hlogD2 : (SimpleFileMapper.logical st.dataFile).length
        = st.dataFile.file.length + st.dataFile.buffer.length := by
      simp [SimpleFileMapper.logical]
    have hfIlen : (SimpleFileMapper.truncate st.indexFile
        ((k * N : Nat) : Int)).file.length = k * N := by
      rw [hfI, List.length_take, Int.toNat_natCast, hlenlog]
      omega
    have hwIv : (SimpleFileMapper.truncate st.indexFile
        ((k * N : Nat) : Int)).writePos = ((k * N : Nat) : Int) := by
      rw [hwI]
      have h1 := hInv.idxCursor
      have h2 : ((k * N : Nat) : Int) ≤ (st.indexFile.file.length : Int)
          + st.indexFile.buffer.length := by exact_mod_cast hkle
      have h3 := Int.natCast_nonneg (k * N)
      omega
    have hfDlen : (SimpleFileMapper.truncate st.dataFile o).file.length = o.toNat := by
      rw [hfD, List.length_take, hlogD2]
      omega
    have hwDv : (SimpleFileMapper.truncate st.dataFile o).writePos = o := by
      rw [hwD]
      have h1 := hInv.dataCursor
      omega
    have hlogtr : SimpleFileMapper.logical (SimpleFileMapper.truncate st.indexFile
        ((k * N : Nat) : Int)) = (SimpleFileMapper.logical st.indexFile).take (k * N) := by
      show (SimpleFileMapper.truncate st.indexFile ((k * N : Nat) : Int)).file ++
        (SimpleFileMapper.truncate st.indexFile ((k * N : Nat) : Int)).buffer = _
      rw [hfI, hbI, List.append_nil, Int.toNat_natCast]
    have hton := Int.toNat_of_nonneg hnn
    refine ⟨⟨?_, ?_, ?_, ?_, ?_, ?_⟩, ?_⟩
    · rw [hfi, hidxtr, hwIv, hfIlen, hbI]
      simp
    · rw [hfd, hwDv, hfDlen, hbD]
      simp only [List.length_nil, Nat.cast_zero, Int.add_zero]
      omega
    · rw [hfi, hidxtr, hfIlen]
      exact ⟨k, Nat.mul_comm k N⟩
    · rw [hfi, hidxtr, hfIlen, hbI]
      simp only [List.length_nil, Nat.add_zero]
      exact ⟨k, Nat.mul_comm k N⟩
    · intro j hj
      rw [hfi, hidxtr, hfIlen, hbI] at hj
      simp only [List.length_nil, Nat.add_zero] at hj
      have hjk : j + 1 ≤ k := Nat.le_of_mul_le_mul_right hj hN
      have hjo : (j + 1) * N ≤ st.indexFile.file.length + st.indexFile.buffer.length := by
        omega
      obtain ⟨oj, hoj, hnnj, hltj⟩ := hInv.stream0lt j hjo
      have hjlt : j * N < k * N := by
        have he : (j + 1) * N = j * N + N := by ring
        omega
      refine ⟨oj, ?_, hnnj, ?_⟩
      · rw [hfi, hidxtr, hlogtr, List.getElem?_take, if_pos hjlt]
        exact hoj
      · rw [hfd, hfDlen, hbD]
        simp only [List.length_nil, Nat.cast_zero, Int.add_zero]
        have hmono := hInv.stream0mono j k oj o (by omega) hk1 hoj ho
        omega
    · intro j1 j2 o1 o2 hjj hle2 hc1 hc2
      rw [hfi, hidxtr, hfIlen, hbI] at hle2
      simp only [List.length_nil, Nat.add_zero] at hle2
      rw [hfi, hidxtr, hlogtr] at hc1 hc2
      have hj2lt : j2 * N < k * N := by
        have he : (j2 + 1) * N = j2 * N + N := by ring
        omega
      have hj1lt : j1 * N < k * N := by
        have h3 : j1 * N ≤ j2 * N := Nat.mul_le_mul_right N (Nat.le_of_lt hjj)
        omega
      rw [List.getElem?_take, if_pos hj1lt] at hc1
      rw [List.getElem?_take, if_pos hj2lt] at hc2
      have hj2o : (j2 + 1) * N ≤
          st.indexFile.file.length + st.indexFile.buffer.length := by
        omega
      exact hInv.stream0mono j1 j2 o1 o2 hjj hj2o hc1 hc2
    · rw [hfi, hidxtr, hfIlen, hbI]
      simp only [List.length_nil, Nat.add_zero]
      omega
  | flushOp =>
    simp only [IFMOp.step] at hstep
    injection hstep with hstep
    have hfi : st'.indexFile = SimpleFileMapper.clearBuffer st.indexFile := by
      rw [← hstep]; rfl
    have hfd : st'.dataFile = SimpleFileMapper.clearBuffer st.dataFile := by
      rw [← hstep]; rfl
    have hcl : ∀ (β : Type) (x : SimpleFileMapper β), SimpleFileMapper.logical
        (SimpleFileMapper.clearBuffer x) = SimpleFileMapper.logical x := fun β x => by
      simp [SimpleFileMapper.logical, SimpleFileMapper.clearBuffer]
    have hclf : ∀ (β : Type) (x : SimpleFileMapper β),
        (SimpleFileMapper.clearBuffer x).file.length +
        (SimpleFileMapper.clearBuffer x).buffer.length =
        x.file.length + x.buffer.length := fun β x => by
      simp [SimpleFileMapper.clearBuffer]
    refine ⟨⟨?_, ?_, ?_, ?_, ?_, ?_⟩, ?_⟩
    · rw [hfi]
      show st.indexFile.writePos = ((st.indexFile.file ++ st.indexFile.buffer).length : Int)
        + (([] : List Int).length : Int)
      simp only [List.length_append, List.length_nil]
      have h1 := hInv.idxCursor
      push_cast
      omega
    · rw [hfd]
      show st.dataFile.writePos = ((st.dataFile.file ++ st.dataFile.buffer).length : Int)
        + (([] : List Nat).length : Int)
      simp only [List.length_append, List.length_nil]
      have h1 := hInv.dataCursor
      push_cast
      omega
    · rw [hfi]
      show N ∣ (st.indexFile.file ++ st.indexFile.buffer).length
      rw [List.length_append]
      exact hInv.idxTotalDvd
    · rw [hfi]
      show N ∣ (st.indexFile.file ++ st.indexFile.buffer).length +
        ([] : List Int).length
      simp only [List.length_append, List.length_nil, Nat.add_zero]
      exact hInv.idxTotalDvd
    · intro j hj
      rw [hfi] at hj
      rw [hclf Int st.indexFile] at hj
      rw [hfi, hfd, hcl Int st.indexFile]
      obtain ⟨o, ho, hnn, hlt⟩ := hInv.stream0lt j hj
      refine ⟨o, ho, hnn, ?_⟩
      show o < ((st.dataFile.file ++ st.dataFile.buffer).length : Int)
        + (([] : List Nat).length : Int)
      simp only [List.length_append, List.length_nil]
      push_cast
      omega
    · intro j1 j2 o1 o2 hjj hle2 hc1 hc2
      rw [hfi] at hle2 hc1 hc2
      rw [hclf Int st.indexFile] at hle2
      rw [hcl Int st.indexFile] at hc1 hc2
      exact hInv.stream0mono j1 j2 o1 o2 hjj hle2 hc1 hc2
    · rw [hfi, hclf Int st.indexFile]
      omega
  | seekEndOp =>
    simp only [IFMOp.step] at hstep
    injection hstep with hstep
    have hfi : st'.indexFile = SimpleFileMapper.seekEnd st.indexFile := by
      rw [← hstep]; rfl
    have hfd : st'.dataFile = SimpleFileMapper.seekEnd st.dataFile := by
      rw [← hstep]; rfl
    refine ⟨⟨?_, ?_, ?_, ?_, ?_, ?_⟩, ?_⟩
    · rw [hfi]
      show (st.indexFile.file.length : Int) + st.indexFile.buffer.length =
        (st.indexFile.file.length : Int) + st.indexFile.buffer.length
      rfl
    · rw [hfd]
      show (st.dataFile.file.length : Int) + st.dataFile.buffer.length =
        (st.dataFile.file.length : Int) + st.dataFile.buffer.length
      rfl
    · rw [hfi]
      exact hInv.idxFileDvd
    · rw [hfi]
      exact hInv.idxTotalDvd
    · intro j hj
      rw [hfi] at hj
      rw [hfi, hfd]
      exact hInv.stream0lt j hj
    · intro j1 j2 o1 o2 hjj hle2 hc1 hc2
      rw [hfi] at hle2 hc1 hc2
      exact hInv.stream0mono j1 j2 o1 o2 hjj hle2 hc1 hc2
    · rw [hfi]
      show st.indexFile.file.length + st.indexFile.buffer.length ≤
        st.indexFile.file.length + st.indexFile.buffer.length + N
      omega

/-- A run of allowed `MultiStreamStore` operations preserves the writer
invariant, and the index store grows by at most one record per operation.
`B` bounds the final index length so that no record position collides with
the `InvalidFileIndex` sentinel. -/
theorem applyIFM_inv {N : Nat} (hN : 0 < N) (maxBuf : Nat) (align : Nat → Nat) :
    ∀ (ops : List IFMOp) (st st' : IndexedFileMapper N) (B : Nat),
    applyIFM maxBuf align ops st = some st' →
    IFMInv st →
    (∀ op ∈ ops, op.goodPayload) →
    st.indexFile.file.length + st.indexFile.buffer.length + N * ops.length ≤ B →
    ((B : Nat) : Int) ≤ InvalidFileIndex →
    IFMInv st' ∧
      st'.indexFile.file.length + st'.indexFile.buffer.length ≤
        st.indexFile.file.length + st.indexFile.buffer.length + N * ops.length
  | [], st, st', B, h, hInv, _, _, _ => by
    simp only [applyIFM, Option.some.injEq] at h
    rw [← h]
    exact ⟨hInv, by omega⟩
  | op :: rest, st, st', B, h, hInv, hgood, hB, hBI => by
    simp only [applyIFM] at h
    cases hs : IFMOp.step maxBuf align st op with
    | none => rw [hs] at h; cases h
    | some st1 =>
      rw [hs] at h
      simp only [Option.some_bind] at h
      have hmul : N * (op :: rest).length = N * rest.length + N := by
        rw [List.length_cons]; ring
      have hstepbig : ((st.indexFile.file.length + st.indexFile.buffer.length + N : Nat)
          : Int) ≤ InvalidFileIndex := by
        have h1 : st.indexFile.file.length + st.indexFile.buffer.length + N ≤ B := by
          omega
        exact le_trans (by exact_mod_cast h1) hBI
      obtain ⟨hInv1, hle1⟩ := IFMOp_step_inv hN maxBuf align st st1 op hInv
        (hgood op (by simp)) hstepbig hs
      obtain ⟨hInv2, hle2⟩ := applyIFM_inv hN maxBuf align rest st1 st' B h hInv1
        (fun o2 ho2 => hgood o2 (by simp [ho2])) (by omega) hBI
      exact ⟨hInv2, by omega⟩

/-- Claim C5: from a fresh `MultiStreamStore` after any allowed sequence of
operations, `append(value)` records the pre-call data cursor as the new
entry's stream-0 slot, appends the record `(cursor, Invalid, …, Invalid)` to
the index store and the payload to the data store, `len()` grows by exactly
one, and afterwards every committed entry `k < len()` satisfies the stream-0
invariant `offsets(k)[0] < data.size()`.  The total index size is assumed to
stay below the `InvalidFileIndex` sentinel, as it must for the offsets to be
representable at all. -/
theorem c5_append_stream0 (N : Nat) (hN : 0 < N) (maxBuf : Nat) (align : Nat → Nat)
    (ops : List IFMOp) (st st' : IndexedFileMapper N) (bytes : List Nat)
    (hgood : ∀ op ∈ ops, op.goodPayload)
    (hb : bytes ≠ [])
    (hrun : applyIFM maxBuf align ops (emptyIFM N) = some st)
    (hstep : IFMOp.step maxBuf align st (IFMOp.writeNew bytes) = some st')
    (hbig : ((N * ops.length + N : Nat) : Int) ≤ InvalidFileIndex) :
    IndexedFileMapper.lenNat st' = IndexedFileMapper.lenNat st + 1 ∧
    SimpleFileMapper.logical st'.dataFile =
      SimpleFileMapper.logical st.dataFile ++ bytes ∧
    IndexedFileMapper.getOffsets st' (IndexedFileMapper.lenNat st) =
      some (SimpleFileMapper.getWriteOffset st.dataFile ::
        List.replicate (N - 1) InvalidFileIndex) ∧
    (∀ k : Nat, (k : Int) < IndexedFileMapper.size st' →
      ∃ offs : List Int, ∃ o : Int,
        IndexedFileMapper.getOffsets st' k = some offs ∧ offs[0]? = some o ∧
        o < SimpleFileMapper.size st'.dataFile) := by
  have hbigN : N * ops.length + N ≤ 9223372036854775807 := by
    have hIv := invalid_value
    rw [hIv] at hbig
    exact_mod_cast hbig
  have hempty0 : (emptyIFM N).indexFile.file.length +
      (emptyIFM N).indexFile.buffer.length = 0 := rfl
  obtain ⟨hInvSt, hlenSt⟩ := applyIFM_inv hN maxBuf align ops (emptyIFM N) st
    (N * ops.length + N) hrun (emptyIFM_inv N hN) hgood (by omega) hbig
  rw [hempty0] at hlenSt
  simp only [Nat.zero_add] at hlenSt
  simp only [IFMOp.step] at hstep
  obtain ⟨hlogi, hlogd, hwpi, hwpd, hdvd', htoti, htotd⟩ :=
    writeNew_effect hN maxBuf (align 0) st st' bytes hInvSt hstep
  have hstbig : ((st.indexFile.file.length + st.indexFile.buffer.length + N : Nat) : Int)
      ≤ InvalidFileIndex := by
    rw [invalid_value]
    exact_mod_cast (show st.indexFile.file.length + st.indexFile.buffer.length + N
      ≤ 9223372036854775807 from by omega)
  obtain ⟨hInv', -⟩ := IFMOp_step_inv hN maxBuf align st st' (IFMOp.writeNew bytes)
    hInvSt hb hstbig hstep
  have hlenlogSt : (SimpleFileMapper.logical st.indexFile).length =
      st.indexFile.file.length + st.indexFile.buffer.length := by
    simp [SimpleFileMapper.logical]
  have hlen_mul : IndexedFileMapper.lenNat st * N =
      st.indexFile.file.length + st.indexFile.buffer.length := by
    show (st.indexFile.file.length + st.indexFile.buffer.length) / N * N = _
    exact Nat.div_mul_cancel hInvSt.idxTotalDvd
  have hbig' : ((st'.indexFile.file.length + st'.indexFile.buffer.length : Nat) : Int)
      ≤ InvalidFileIndex := by
    rw [invalid_value]
    exact_mod_cast (show st'.indexFile.file.length + st'.indexFile.buffer.length
      ≤ 9223372036854775807 from by omega)
  refine ⟨?_, hlogd, ?_, ?_⟩
  · show (st'.indexFile.file.length + st'.indexFile.buffer.length) / N =
      (st.indexFile.file.length + st.indexFile.buffer.length) / N + 1
    rw [htoti]
    exact Nat.add_div_right _ hN
  · have hk1' : (IndexedFileMapper.lenNat st + 1) * N ≤
        st'.indexFile.file.length + st'.indexFile.buffer.length := by
      have he : (IndexedFileMapper.lenNat st + 1) * N
          = IndexedFileMapper.lenNat st * N + N := by ring
      omega
    rw [getOffsets_eq hN st' (IndexedFileMapper.lenNat st) hdvd' hk1' hbig']
    rw [hlogi]
    rw [show IndexedFileMapper.lenNat st * N =
      (SimpleFileMapper.logical st.indexFile).length from by rw [hlenlogSt, hlen_mul]]
    rw [List.drop_left]
    have htk : (SimpleFileMapper.getWriteOffset st.dataFile ::
        List.replicate (N - 1) InvalidFileIndex).length ≤ N := by
      simp only [List.length_cons, List.length_replicate]
      omega
    rw [List.take_of_length_le htk]
  · intro k hk
    have hk1 : (k + 1) * N ≤ st'.indexFile.file.length + st'.indexFile.buffer.length :=
      (size_lt_iff hN st' k).mp hk
    obtain ⟨o, ho, hnn, hlt⟩ := hInv'.stream0lt k hk1
    refine ⟨_, o, getOffsets_eq hN st' k hInv'.idxFileDvd hk1 hbig', ?_, ?_⟩
    · rw [List.getElem?_take, if_pos hN, List.getElem?_drop, Nat.add_zero]
      exact ho
    · show o < (st'.dataFile.file.length : Int) + st'.dataFile.buffer.length
      exact hlt

/-- Witness for C5: a fresh two-stream store, no preceding operations, one
append of a single byte; `len()` goes from 0 to 1. -/
theorem c5_append_stream0_witness :
    IndexedFileMapper.lenNat
        (⟨⟨[], [9], 1⟩, ⟨[], [0, InvalidFileIndex], 2⟩⟩ : IndexedFileMapper 2) =
      IndexedFileMapper.lenNat (emptyIFM 2) + 1 :=
  (c5_append_stream0 2 (by decide) 50000000 (fun _ => 1) [] (emptyIFM 2)
      ⟨⟨[], [9], 1⟩, ⟨[], [0, InvalidFileIndex], 2⟩⟩ [9]
      (by intro op hop; cases hop) (by decide) rfl (by decide) (by decide)).1

/-! ## Claim C6 -/

/-- `SimpleFileMapper<write>::getDataAtOffset` yields the null pointer
exactly at the sentinel offset. -/
theorem getDataAtOffset_null_iff {β : Type} (st : SimpleFileMapper β) (o : Int) :
    SimpleFileMapper.getDataAtOffset st o = some SimpleFileMapper.Ptr.null ↔
      o = InvalidFileIndex := by
  unfold SimpleFileMapper.getDataAtOffset
  by_cases h1 : o < (st.file.length : Int) + st.buffer.length ∨ o = InvalidFileIndex
  · rw [if_pos h1]
    by_cases h2 : o = InvalidFileIndex
    · rw [if_pos h2]
      simp [h2]
    · rw [if_neg h2]
      constructor
      · intro hx
        by_cases h3 : o < 0
        · rw [if_pos h3] at hx; cases hx
        · rw [if_neg h3] at hx
          by_cases h4 : o < (st.file.length : Int)
          · rw [if_pos h4] at hx; simp at hx
          · rw [if_neg h4] at hx; simp at hx
      · intro hx; exact absurd hx h2
  · rw [if_neg h1]
    constructor
    · intro hx; cases hx
    · intro hx; exact absurd (Or.inr hx) h1

/-- Claim C6: for a committed entry `k` whose stream-`i` slot reads back as
`o` (the stored offset), `get<i>(k)` returns the absent/null handle iff `o`
is the sentinel `InvalidFileIndex`; and a read at offset `Invalid` on any
write-mode byte store yields the null handle rather than a byte pointer. -/
theorem c6_absent_iff_invalid (N : Nat) (st : IndexedFileMapper N) (i k : Nat)
    (o : Int)
    (hk : (k : Int) < IndexedFileMapper.size st)
    (ho : IndexedFileMapper.getOffset st i k = some o) :
    (IndexedFileMapper.getDataAtIndex st i k = some SimpleFileMapper.Ptr.null ↔
      o = InvalidFileIndex) ∧
    (∀ dst : SimpleFileMapper Nat,
      SimpleFileMapper.getDataAtOffset dst InvalidFileIndex =
        some SimpleFileMapper.Ptr.null) := by
  constructor
  · unfold IndexedFileMapper.getDataAtIndex
    rw [if_pos hk, ho]
    simp only [Option.some_bind]
    exact getDataAtOffset_null_iff _ _
  · intro dst
    exact (getDataAtOffset_null_iff dst InvalidFileIndex).mpr rfl

/-- Witness for C6: a two-stream store with one entry whose stream-1 slot is
`Invalid`; `get<1>(0)` is the null handle. -/
theorem c6_absent_iff_invalid_witness :
    IndexedFileMapper.getDataAtIndex
      (⟨⟨[42], [], 1⟩, ⟨[0, InvalidFileIndex], [], 2⟩⟩ : IndexedFileMapper 2) 1 0 =
      some SimpleFileMapper.Ptr.null :=
  ((c6_absent_iff_invalid 2 ⟨⟨[42], [], 1⟩, ⟨[0, InvalidFileIndex], [], 2⟩⟩ 1 0
      InvalidFileIndex (by decide) (by decide)).1).mpr rfl

/-! ## Claim C7 -/

/-- The file/buffer shape of the spec-modelled byte-store truncate at a
non-negative offset. -/
theorem truncate_lengths {β : Type} [Zero β] (st : SimpleFileMapper β) (o : Int) :
    (SimpleFileMapper.truncate st o).file.length = o.toNat ∧
    (SimpleFileMapper.truncate st o).buffer = [] := by
  constructor
  · simp only [SimpleFileMapper.truncate, SimpleFileMapper.clearBuffer]
    split
    next hle =>
      rw [List.length_take]
      exact Nat.min_eq_left hle
    next hgt =>
      push_neg at hgt
      simp only [List.length_append, List.length_replicate] at hgt ⊢
      omega
  · rfl

/-- Claim C7: for `k < len()`, `truncate(k)` reads `o = I[k][0]`, truncates
the index store to `k` records and the data store to `o` bytes, and
afterwards `len()` equals `k`. -/
theorem c7_truncate (N : Nat) (hN : 0 < N) (st : IndexedFileMapper N) (k : Nat)
    (offs : List Int) (o : Int)
    (hk : (k : Int) < IndexedFileMapper.size st)
    (hoffs : IndexedFileMapper.getOffsets st k = some offs)
    (ho : offs[0]? = some o) :
    IndexedFileMapper.truncate st k =
      some ⟨SimpleFileMapper.truncate st.dataFile o,
            FixedSizeFileMapper.truncate N st.indexFile (k : Int)⟩ ∧
    (∀ st2 : IndexedFileMapper N, IndexedFileMapper.truncate st k = some st2 →
      IndexedFileMapper.size st2 = k) := by
  have heq : IndexedFileMapper.truncate st k =
      some ⟨SimpleFileMapper.truncate st.dataFile o,
            FixedSizeFileMapper.truncate N st.indexFile (k : Int)⟩ := by
    unfold IndexedFileMapper.truncate
    rw [if_pos hk, hoffs]
    simp only [Option.some_bind, ho]
  refine ⟨heq, ?_⟩
  intro st2 h2
  rw [heq] at h2
  injection h2 with h2
  subst h2
  have hkN : k < (st.indexFile.file.length + st.indexFile.buffer.length) / N := by
    have hsz : IndexedFileMapper.size st =
        (((st.indexFile.file.length + st.indexFile.buffer.length) / N : Nat) : Int) := by
      rw [IndexedFileMapper.size, FixedSizeFileMapper.size, SimpleFileMapper.size,
        SimpleFileMapper.baseSize]
      rw [show ((st.indexFile.file.length : Int) + st.indexFile.buffer.length) =
        ((st.indexFile.file.length + st.indexFile.buffer.length : Nat) : Int) from by
          push_cast; ring]
      exact (Int.natCast_div _ _).symm
    rw [hsz] at hk
    exact_mod_cast hk
  have hgpnn : 0 ≤ FixedSizeFileMapper.getPos N (k : Int) := by
    rw [FixedSizeFileMapper.getPos]
    positivity
  have htn : (FixedSizeFileMapper.getPos N (k : Int)).toNat = k * N := by
    rw [FixedSizeFileMapper.getPos]
    rw [show ((k : Int) * N) = ((k * N : Nat) : Int) from by push_cast; ring]
    exact Int.toNat_natCast _
  obtain ⟨hfl, hbe⟩ := truncate_lengths st.indexFile (FixedSizeFileMapper.getPos N (k : Int))
  rw [IndexedFileMapper.size, FixedSizeFileMapper.size, SimpleFileMapper.size,
    SimpleFileMapper.baseSize]
  show ((((FixedSizeFileMapper.truncate N st.indexFile (k : Int)).file.length : Int)) +
    ((FixedSizeFileMapper.truncate N st.indexFile (k : Int)).buffer.length : Int)) / (N : Int) = k
  rw [show FixedSizeFileMapper.truncate N st.indexFile (k : Int) =
    SimpleFileMapper.truncate st.indexFile (FixedSizeFileMapper.getPos N (k : Int)) from rfl]
  rw [hfl, hbe, htn]
  simp only [List.length_nil, Nat.cast_zero, Int.add_zero]
  rw [show ((k * N : Nat) : Int) / (N : Int) = (((k * N) / N : Nat) : Int) from
    (Int.natCast_div _ _).symm]
  rw [Nat.mul_div_cancel k hN]

/-- Witness for C7: a one-stream store with two entries; truncating at entry
1 reads its stream-0 offset 1, truncates the index file to one record and
the data file to one byte, and the entry count becomes 1. -/
theorem c7_truncate_witness :
    IndexedFileMapper.truncate
      (⟨⟨[7, 8], [], 2⟩, ⟨[0, 1], [], 2⟩⟩ : IndexedFileMapper 1) 1 =
      some ⟨SimpleFileMapper.truncate (⟨[7, 8], [], 2⟩ : SimpleFileMapper Nat) 1,
            FixedSizeFileMapper.truncate 1 (⟨[0, 1], [], 2⟩ : SimpleFileMapper Int)
              ((1 : Nat) : Int)⟩ :=
  (c7_truncate 1 (by decide) ⟨⟨[7, 8], [], 2⟩, ⟨[0, 1], [], 2⟩⟩ 1 [1] 1
    (by decide) (by decide) (by decide)).1

/-! ## Claim C8 -/

/-- Claim C8: for an alignment `A = alignof(MainType) ≥ 1` and any staged
contents, after `finalize` the length is a multiple of `A`, every byte that
`finalize` appended as padding is zero, and `size()` after `finalize` equals
the length of the finalized data returned. -/
theorem c8_finalize_alignment (A : Nat) (hA : 0 < A) (d : List Nat) :
    (ArbitraryLengthData.finalize A d).length % A = 0 ∧
    (ArbitraryLengthData.finalize A d).drop d.length =
      List.replicate ((ArbitraryLengthData.finalize A d).length - d.length) 0 ∧
    ArbitraryLengthData.size (ArbitraryLengthData.finalize A d) =
      ((ArbitraryLengthData.finalize A d).length : Int) := by
  refine ⟨?_, ?_, rfl⟩
  · unfold ArbitraryLengthData.finalize
    by_cases h : d.length % A > 0
    · simp only [h, if_true]
      have hlt : d.length % A < A := Nat.mod_lt _ hA
      have h1 : (d ++ List.replicate (A - d.length % A) 0).length =
          d.length + (A - d.length % A) := by simp
      rw [h1, Nat.add_mod]
      have e1 : (A - d.length % A) % A = A - d.length % A := Nat.mod_eq_of_lt (by omega)
      rw [e1]
      have e2 : d.length % A + (A - d.length % A) = A := by omega
      rw [e2, Nat.mod_self]
    · simp only [h, if_false]
      omega
  · unfold ArbitraryLengthData.finalize
    by_cases h : d.length % A > 0
    · simp only [h, if_true]
      rw [List.drop_append_of_le_length le_rfl]
      simp
    · simp only [h, if_false]
      simp

/-- Witness for C8 at spec scenario 6: alignment 8, a 13-byte payload pads to
16 with three zero bytes. -/
theorem c8_finalize_alignment_witness :
    (ArbitraryLengthData.finalize 8 (List.replicate 13 1)).length % 8 = 0 ∧
    (ArbitraryLengthData.finalize 8 (List.replicate 13 1)).drop (List.replicate 13 1).length =
      List.replicate ((ArbitraryLengthData.finalize 8 (List.replicate 13 1)).length -
        (List.replicate 13 1).length) 0 ∧
    ArbitraryLengthData.size (ArbitraryLengthData.finalize 8 (List.replicate 13 1)) =
      ((ArbitraryLengthData.finalize 8 (List.replicate 13 1)).length : Int) :=
  c8_finalize_alignment 8 (by decide) (List.replicate 13 1)

/-! ## Claim C9 -/

/-- Claim C9: for a chain of `n ≥ 1` blocks (block counts are 32-bit), a
negative index is remapped through the truncated-division remainder before
the bounds check, so every in-range negative index `-n ≤ i < 0` yields the
block of height `n + i`, every negative multiple `-(k·n)` of `n` yields the
block of height 0 rather than `IndexError`, while (for `n ≥ 2`) the
out-of-range index `-(n+1)` does raise. -/
theorem c9_getitem_negative (n : Nat) (hn : 1 ≤ n) (hn32 : n < 2 ^ 32) :
    (∀ i : Int, -(n : Int) ≤ i → i < 0 → blockchainGetitem n i = some ((n : Int) + i)) ∧
    (∀ k : Nat, 1 ≤ k → blockchainGetitem n (-((k * n : Nat) : Int)) = some 0) ∧
    (2 ≤ n → blockchainGetitem n (-(n : Int) - 1) = none) := by
  refine ⟨?_, ?_, ?_⟩
  · intro i h1 h2
    have hlt : (0 : Int) ≤ (n : Int) + i := by omega
    have hlt2 : (n : Int) + i < (n : Int) := by omega
    simp only [blockchainGetitem, if_pos h2]
    rw [Int.tmod_eq_emod hlt (by omega), Int.emod_eq_of_lt hlt hlt2,
      Int.emod_eq_of_lt hlt (by omega), if_neg]
    omega
  · intro k hk
    have hneg : -(((k * n : Nat) : Int)) < 0 := by
      have h0 : 0 < k * n := Nat.mul_pos hk hn
      have : (0 : Int) < ((k * n : Nat) : Int) := by exact_mod_cast h0
      omega
    have hdvd : ((n : Int)) ∣ ((n : Int) + -(((k * n : Nat) : Int))) := by
      refine Dvd.intro (1 - k) ?_
      push_cast
      ring
    simp only [blockchainGetitem, if_pos hneg]
    rw [Int.tmod_eq_zero_of_dvd hdvd]
    simp only [Int.zero_emod, Int.toNat_zero]
    rw [if_neg (by omega)]
  · intro h2
    have hneg : -(n : Int) - 1 < 0 := by omega
    have hsum : (n : Int) + (-(n : Int) - 1) = -1 := by ring
    simp only [blockchainGetitem, if_pos hneg]
    rw [hsum]
    have htm : Int.tmod (-1) (n : Int) = -1 := by
      have h1n : (1 : Nat) % n = 1 := Nat.mod_eq_of_lt (by omega)
      show Int.tmod (Int.negSucc 0) (Int.ofNat n) = -1
      unfold Int.tmod
      simp [h1n]
    rw [htm]
    have he : ((-1 : Int) % (2 : Int) ^ 64) = 2 ^ 64 - 1 := by decide
    rw [he, if_pos]
    have hc : ((2 : Int) ^ 64 - 1).toNat = 2 ^ 64 - 1 := by decide
    rw [hc]
    omega

/-- Witness for C9 at `n = 3`: index −2 yields block 1, index −6 = −2·3 yields
block 0, index −4 raises. -/
theorem c9_getitem_negative_witness :
    blockchainGetitem 3 (-2) = some 1 ∧
    blockchainGetitem 3 (-(((2 * 3 : Nat)) : Int)) = some 0 ∧
    blockchainGetitem 3 (-(3 : Int) - 1) = none := by
  obtain ⟨h1, h2, h3⟩ := c9_getitem_negative 3 (by decide) (by decide)
  exact ⟨by simpa using h1 (-2) (by decide) (by decide), h2 2 (by decide), h3 (by decide)⟩

/-! ## Claim C10 -/

/-- Claim C10: `RawBlock::operator==` holds iff the two records agree on hash,
coinbaseOffset, firstTxIndex, txCount, inputCount, outputCount, height,
version, timestamp, bits and nonce; `realSize` and `baseSize` are ignored, so
records differing only there compare equal. -/
theorem c10_rawblock_eq :
    (∀ a b : RawBlock, RawBlock.beq a b = true ↔
      (a.hash = b.hash ∧ a.coinbaseOffset = b.coinbaseOffset ∧
       a.firstTxIndex = b.firstTxIndex ∧ a.txCount = b.txCount ∧
       a.inputCount = b.inputCount ∧ a.outputCount = b.outputCount ∧
       a.height = b.height ∧ a.version = b.version ∧ a.timestamp = b.timestamp ∧
       a.bits = b.bits ∧ a.nonce = b.nonce)) ∧
    (∀ (a : RawBlock) (r1 b1 r2 b2 : Nat),
      RawBlock.beq { a with realSize := r1, baseSize := b1 }
        { a with realSize := r2, baseSize := b2 } = true) := by
  constructor
  · intro a b
    unfold RawBlock.beq
    simp only [Bool.and_eq_true, beq_iff_eq]
    tauto
  · intro a r1 b1 r2 b2
    unfold RawBlock.beq
    simp

end blocksci
